import Mathlib

/-!
Verification of the lighttree `Tree`/`Node` library (src/lighttree/tree.py,
src/lighttree/node.py) against its natural-language specification.

The Python code is shallowly embedded:
  - Python dicts are association lists (`AList`) preserving insertion order;
    `defaultdict` default values are modelled by total lookup functions with a
    default result, since materialising a default entry is unobservable.
  - mutating methods are state transformers in the monad `M α = Tree →
    Except Err α × Tree`, which keeps the state reached so far when an
    exception is raised (matching Python exception semantics, where the
    object keeps mutations performed before the raise);
  - read-only methods are pure functions `Tree → Except Err α`;
  - Python exceptions are the error kinds of `Err` (messages dropped);
  - loops whose termination depends on tree well-formedness are given
    explicit fuel; exhaustion returns the distinguished error `Err.fuel`,
    which no Python path produces (Python would diverge instead).
  - the `by_path` parameters of the source are specialised to their default
    `False` (no claim involves path addressing), and `deep` copying is the
    identity because embedded nodes are immutable values.
-/

namespace Lighttree

/-- Association list with string keys, the embedding of a Python dict
(insertion ordered). -/
abbrev AList (α : Type) : Type := List (String × α)

/-- Dict lookup: `d.get(k)` / `d[k]` presence. -/
def alget {α : Type} (l : AList α) (k : String) : Option α :=
  match l.find? (fun p => p.1 == k) with
  | some p => some p.2
  | none => none

/-- Dict write `d[k] = v`: updates in place if the key exists, else appends
(Python dicts keep the original position of an updated key). -/
def alset {α : Type} (l : AList α) (k : String) (v : α) : AList α :=
  match l with
  | [] => [(k, v)]
  | p :: rest => if p.1 = k then (k, v) :: rest else p :: alset rest k v

/-- Dict `d.pop(k)`: removes the entry for `k` (keys are unique in every
reachable state, so removing all matches equals removing the first). -/
def alpop {α : Type} (l : AList α) (k : String) : AList α :=
  l.filter (fun p => p.1 ≠ k)

/-- Keys of a dict, in order. -/
def alkeys {α : Type} (l : AList α) : List String := l.map (fun p => p.1)

/-- A key of a child under its parent: `None` for root or an omitted key,
a string under a keyed ("map") node, an integer under an unkeyed ("list")
node. -/
inductive PKey : Type
  | null : PKey
  | str (s : String) : PKey
  | idx (n : Int) : PKey
deriving DecidableEq, Repr

/-- Exception kinds raised by the source
(src/lighttree/exceptions.py plus Python builtins). -/
inductive Err : Type
  | notFound : Err
  | multipleRoot : Err
  | duplicatedNode : Err
  | valueErr : Err
  | keyErr : Err
  | notImplemented : Err
  | indexErr : Err
  | fuel : Err
deriving DecidableEq, Repr

/-- src/lighttree/node.py `Node.__init__` fields (payload `data` embedded as
an optional string, only its rendering matters). -/
structure Node : Type where
  identifier : String
  keyed : Bool := true
  accept_children : Bool := true
  node_repr : Option String := none
  data : Option String := none
deriving DecidableEq, Repr

/-- src/lighttree/node.py `Node.__eq__`: equality is by identifier only. -/
def Node.eq (a b : Node) : Bool := a.identifier == b.identifier

/-- src/lighttree/node.py `Node.line_repr`: two-part line representation. -/
def Node.line_repr (n : Node) : String × String :=
  match n.node_repr with
  | some r => (r, "")
  | none =>
    if !n.accept_children then
      ((match n.data with
        | some d => d
        | none => "None"), "")
    else if n.keyed then ("\x7b\x7d", "") else ("[]", "")

/-- src/lighttree/tree.py `Tree.__init__`: the dual-indexed store. -/
structure Tree : Type where
  root : Option String := none
  nodes_map : AList Node := []
  nodes_parent : AList String := []
  nodes_children_map : AList (AList String) := []
  nodes_children_list : AList (List String) := []
deriving DecidableEq, Repr

/-- The empty tree `Tree()`. -/
def Tree.empty : Tree := {}

/-- Node lookup `self._nodes_map[nid]` as an option. -/
def Tree.getNode (t : Tree) (nid : String) : Option Node := alget t.nodes_map nid

/-- `nid in self` (`Tree.__contains__`). -/
def Tree.contains (t : Tree) (nid : String) : Bool := (t.getNode nid).isSome

/-- `self._nodes_parent[nid]` (defaultdict with default `None`). -/
def Tree.parentOf (t : Tree) (nid : String) : Option String :=
  alget t.nodes_parent nid

/-- `self._nodes_children_map[nid]` (defaultdict with default empty dict):
the child id -> string key map of a keyed node. -/
def Tree.childMap (t : Tree) (nid : String) : AList String :=
  (alget t.nodes_children_map nid).getD []

/-- `self._nodes_children_list[nid]` (defaultdict with default empty list):
the ordered child ids of an unkeyed node. -/
def Tree.childList (t : Tree) (nid : String) : List String :=
  (alget t.nodes_children_list nid).getD []

/-- `Tree.is_empty`. -/
def Tree.is_empty (t : Tree) : Bool := t.root.isNone

/-- Number of nodes `len(self._nodes_map)`. -/
def Tree.size (t : Tree) : Nat := t.nodes_map.length

/-- The ids of all nodes, in insertion order. -/
def Tree.ids (t : Tree) : List String := alkeys t.nodes_map

/-- The state-and-exception monad of the embedding: a Python method on a
`Tree`.  On an exception the state reached so far is kept. -/
def M (α : Type) : Type := Tree → Except Err α × Tree

instance : Monad M where
  pure a := fun t => (Except.ok a, t)
  bind x f := fun t =>
    match x t with
    | (Except.ok a, t2) => f a t2
    | (Except.error e, t2) => (Except.error e, t2)

/-- Raise an exception. -/
def M.throw {α : Type} (e : Err) : M α := fun t => (Except.error e, t)

/-- Read the whole state. -/
def M.get : M Tree := fun t => (Except.ok t, t)

/-- Replace the whole state. -/
def M.set (t2 : Tree) : M Unit := fun _ => (Except.ok (), t2)

/-- Run a read-only computation. -/
def M.lift {α : Type} (f : Tree → Except Err α) : M α := fun t => (f t, t)

/-- Run a stateful computation on a given tree. -/
def M.run {α : Type} (x : M α) (t : Tree) : Except Err α × Tree := x t

/-- `Tree._ensure_present` (specialised to `by_path`-free callers). -/
def Tree.ensure_present (t : Tree) (nid : Option String)
    (defaults_to_root : Bool) (allow_empty : Bool) : Except Err (Option String) :=
  match nid with
  | none =>
    if !t.is_empty && defaults_to_root then Except.ok t.root
    else if allow_empty then Except.ok none
    else Except.error Err.valueErr
  | some n =>
    if t.contains n then Except.ok (some n) else Except.error Err.notFound

/-- `Tree._validate_node_insertion`. -/
def Tree.validate_node_insertion (t : Tree) (node : Node) : Except Err Unit :=
  if t.contains node.identifier then Except.error Err.duplicatedNode
  else Except.ok ()

/-- `Tree.parent_id` (raises NotFound on the root and on ids whose parent
entry is missing). -/
def Tree.parent_id (t : Tree) (nid : String) : Except Err String :=
  if some nid = t.root then Except.error Err.notFound
  else
    match t.ensure_present (some nid) false false with
    | Except.error e => Except.error e
    | Except.ok _ =>
      match t.parentOf nid with
      | some pid => Except.ok pid
      | none => Except.error Err.notFound

/-- `Tree.get_key`, fuelled: the source recurses up the ancestor chain
(`get_key` calls `parent` which calls `get` on the parent, which computes the
parent's key in turn). -/
def Tree.get_keyF (t : Tree) : Nat → String → Except Err PKey
  | 0, _ => Except.error Err.fuel
  | fuel+1, nid => do
    let _ ← t.ensure_present (some nid) false false
    if some nid = t.root then Except.ok PKey.null
    else do
      -- parent(nid) = get(parent_id(nid)): the parent's own key is computed
      -- (and discarded), propagating any exception it raises
      let pid ← t.parent_id nid
      let _ ← t.ensure_present (some pid) false false
      let _ ← t.get_keyF fuel pid
      match t.getNode pid with
      | none => Except.error Err.notFound
      | some parent_node =>
        if parent_node.keyed then
          match alget (t.childMap pid) nid with
          | some k => Except.ok (PKey.str k)
          | none => Except.error Err.keyErr
        else
          match (t.childList pid).findIdx? (fun c => c == nid) with
          | some i => Except.ok (PKey.idx (Int.ofNat i))
          | none => Except.error Err.valueErr

/-- `Tree.get_key` with enough fuel for any well-formed tree. -/
def Tree.get_key (t : Tree) (nid : String) : Except Err PKey :=
  t.get_keyF (t.size + 1) nid

/-- `Tree.get`. -/
def Tree.getKN (t : Tree) (nid : String) : Except Err (PKey × Node) := do
  let _ ← t.ensure_present (some nid) false false
  let k ← t.get_key nid
  match t.getNode nid with
  | some n => Except.ok (k, n)
  | none => Except.error Err.notFound

/-- `Tree.children_ids`. -/
def Tree.children_ids (t : Tree) (nid : String) : Except Err (List String) := do
  let kn ← t.getKN nid
  if kn.2.keyed then Except.ok (alkeys (t.childMap nid))
  else Except.ok (t.childList nid)

/-- `Tree.children`. -/
def Tree.childrenKN (t : Tree) (nid : String) : Except Err (List (PKey × Node)) := do
  let cids ← t.children_ids nid
  cids.mapM (fun cid => t.getKN cid)

/-- `Tree.list` with no filters, as used by `_validate_tree_insertion`:
every `(get_key(nid), node)` in node-map order. -/
def Tree.list_ (t : Tree) : Except Err (List (PKey × Node)) :=
  t.nodes_map.mapM (fun p => do
    let k ← t.get_key p.1
    Except.ok (k, p.2))

/-- `Tree._validate_tree_insertion`. -/
def Tree.validate_tree_insertion (t : Tree) (other : Tree) : Except Err Unit := do
  let l ← other.list_
  l.forM (fun p => t.validate_node_insertion p.2)

/-- Lexicographic order on code-point lists (Python string comparison). -/
def charsLt : List Char → List Char → Bool
  | [], [] => false
  | [], _ :: _ => true
  | _ :: _, [] => false
  | a :: as, b :: bs =>
    if a.toNat < b.toNat then true
    else if a.toNat = b.toNat then charsLt as bs
    else false

/-- Python `str < str`: lexicographic on code points. -/
def strLtb (a b : String) : Bool := charsLt a.data b.data

/-- Strict comparison used to embed Python `sort(key=itemgetter(0))` on
homogeneous sibling keys (every sort in the source compares keys of children
of one node, which share one type). -/
def PKey.ltb : PKey → PKey → Bool
  | PKey.null, PKey.null => false
  | PKey.null, _ => true
  | _, PKey.null => false
  | PKey.str a, PKey.str b => strLtb a b
  | PKey.str _, PKey.idx _ => true
  | PKey.idx _, PKey.str _ => false
  | PKey.idx a, PKey.idx b => a < b

/-- Stable insertion of one keyed element into a sorted list: walks past
elements strictly preceding it, so equal keys keep their original order. -/
def insertSorted {α : Type} (lt : PKey → PKey → Bool) (p : PKey × α) :
    List (PKey × α) → List (PKey × α)
  | [] => [p]
  | q :: rest =>
    if lt q.1 p.1 then q :: insertSorted lt p rest else p :: q :: rest

/-- Stable sort by key, embedding Python `list.sort(key=itemgetter(0))`;
`rev` embeds `reverse=True` (descending, still stable). -/
def sortPairs {α : Type} (rev : Bool) (l : List (PKey × α)) : List (PKey × α) :=
  let lt := fun a b => if rev then PKey.ltb b a else PKey.ltb a b
  l.foldr (insertSorted lt) []

/-- Python `list.insert(i, x)`: negative indices count from the end and
out-of-range indices clamp. -/
def pyListInsert {α : Type} (i : Int) (x : α) (l : List α) : List α :=
  let n : Int := Int.ofNat l.length
  let j := if i < 0 then max (n + i) 0 else min i n
  l.take j.toNat ++ x :: l.drop j.toNat

/-- An optional filter predicate on `(key, node)`. -/
abbrev Filt : Type := Option (PKey → Node → Bool)

/-- Whether the filter admits a pair (`filter_ is None or filter_(k, n)`). -/
def passes (filt : Filt) (k : PKey) (n : Node) : Bool :=
  match filt with
  | none => true
  | some f => f k n

/-- Child-enqueueing guard of `expand_tree`
(`filter_ is None or filter_through or filter_(k, n)`). -/
def enqueues (filt : Filt) (ft : Bool) (k : PKey) (n : Node) : Bool :=
  match filt with
  | none => true
  | some f => ft || f k n

/-- The `while queue:` loop of `Tree.expand_tree`, fuelled.  Each iteration
pops the head, yields it if it passes the filter, fetches and sorts its
admitted children and splices them to the front (depth) or back (width). -/
def Tree.expandLoop (t : Tree) (mode : String) (filt : Filt) (ft : Bool)
    (rev : Bool) : Nat → List (PKey × Node) → Except Err (List (PKey × Node))
  | _, [] => Except.ok []
  | 0, _ :: _ => Except.error Err.fuel
  | fuel+1, (ck, cn) :: rest => do
    let expansion ← t.childrenKN cn.identifier
    let expansion := expansion.filter (fun q => enqueues filt ft q.1 q.2)
    let expansion := sortPairs rev expansion
    let queue := if mode = "depth" then expansion ++ rest else rest ++ expansion
    let tail ← t.expandLoop mode filt ft rev fuel queue
    Except.ok (if passes filt ck cn then (ck, cn) :: tail else tail)

/-- `Tree.expand_tree` (by_path specialised to False); returns the list of
yielded `(key, node)` pairs. -/
def Tree.expand_tree (t : Tree) (nid : Option String) (mode : String)
    (filt : Filt) (ft : Bool) (rev : Bool) : Except Err (List (PKey × Node)) := do
  if mode ≠ "depth" && mode ≠ "width" then Except.error Err.notImplemented
  else do
    let nid ← t.ensure_present nid true true
    match nid with
    | none => Except.ok []
    | some nid => do
      let kn ← t.getKN nid
      let filter_pass_node := passes filt kn.1 kn.2
      if filter_pass_node || ft then do
        let queue ← t.childrenKN nid
        let queue := queue.filter (fun q => enqueues filt ft q.1 q.2)
        let queue := sortPairs rev queue
        let tail ← t.expandLoop mode filt ft rev (t.size + 1) queue
        Except.ok (if filter_pass_node then kn :: tail else tail)
      else
        Except.ok (if filter_pass_node then [kn] else [])

/-- `expand_tree` with every argument at its default. -/
def Tree.expandAll (t : Tree) (nid : Option String) :
    Except Err (List (PKey × Node)) :=
  t.expand_tree nid "depth" none false false

/-- Lift a pure `Except` value into the stateful monad. -/
def M.liftE {α : Type} (x : Except Err α) : M α := fun t => (x, t)

/-- `Tree._insert_node_below` (by_path specialised to False).  All checks
precede every write, so a failure leaves the state unchanged. -/
def Tree.insert_node_below_raw (node : Node) (parent_id : Option String)
    (key : PKey) : M Unit := do
  let t ← M.get
  match parent_id with
  | none =>
    -- insertion at root
    if !t.is_empty then M.throw Err.multipleRoot
    else if key ≠ PKey.null then M.throw Err.valueErr
    else M.set { t with root := some node.identifier,
                        nodes_map := alset t.nodes_map node.identifier node }
  | some pid => do
    let _ ← M.liftE (t.ensure_present (some pid) false false)
    let node_id := node.identifier
    let kn ← M.liftE (t.getKN pid)
    let parent := kn.2
    if !parent.accept_children then M.throw Err.valueErr
    else if parent.keyed then
      -- map: a string key is compulsory; the collision test of the source
      -- checks the key against the child-id keys of the child->key dict
      match key with
      | PKey.null => M.throw Err.valueErr
      | PKey.idx _ => M.throw Err.valueErr
      | PKey.str s =>
        if (alget (t.childMap pid) s).isSome then M.throw Err.keyErr
        else M.set { t with
          nodes_map := alset t.nodes_map node_id node,
          nodes_parent := alset t.nodes_parent node_id pid,
          nodes_children_map :=
            alset t.nodes_children_map pid (alset (t.childMap pid) node_id s) }
    else
      -- list: no key appends, an integer key inserts at that position
      match key with
      | PKey.null => M.set { t with
          nodes_map := alset t.nodes_map node_id node,
          nodes_parent := alset t.nodes_parent node_id pid,
          nodes_children_list :=
            alset t.nodes_children_list pid (t.childList pid ++ [node_id]) }
      | PKey.str _ => M.throw Err.valueErr
      | PKey.idx i => M.set { t with
          nodes_map := alset t.nodes_map node_id node,
          nodes_parent := alset t.nodes_parent node_id pid,
          nodes_children_list :=
            alset t.nodes_children_list pid
              (pyListInsert i node_id (t.childList pid)) }

/-- `Tree.insert_node` specialised to `child_id=None`, the only shape used
by `clone` and `_insert_tree_below`: validate, insert below, return the new
key. -/
def Tree.insert_nodeBelow (node : Node) (parent_id : Option String)
    (key : PKey) : M PKey := do
  let t ← M.get
  let _ ← M.liftE (t.validate_node_insertion node)
  Tree.insert_node_below_raw node parent_id key
  M.lift (fun t2 => t2.get_key node.identifier)

/-- The insertion loop of `Tree.clone`: the first expanded node becomes the
root of the copy (no parent, no key), every other node is inserted below its
parent in the source tree, under its source key. -/
def Tree.cloneLoop (t : Tree) :
    Bool → List (PKey × Node) → Tree → Except Err Tree
  | _, [], acc => Except.ok acc
  | isFirst, (key, node) :: rest, acc => do
    let pk : Option String × PKey ←
      if isFirst then Except.ok (none, PKey.null)
      else do
        let pid ← t.parent_id node.identifier
        Except.ok (some pid, key)
    match (Tree.insert_nodeBelow node pk.1 pk.2).run acc with
    | (Except.ok _, acc2) => t.cloneLoop false rest acc2
    | (Except.error e, _) => Except.error e

/-- `Tree.clone` (deep copying is the identity on immutable embedded nodes;
the base-class `_clone_init` returns an empty tree, so the root-drop guard
of the source is vacuous). -/
def Tree.clone (t : Tree) (with_nodes : Bool) (new_root : Option String) :
    Except Err Tree :=
  if !with_nodes then Except.ok Tree.empty
  else do
    let l ← t.expandAll new_root
    t.cloneLoop true l Tree.empty

/-- `Tree.subtree`. -/
def Tree.subtree (t : Tree) (nid : String) : Except Err (PKey × Tree) := do
  let t2 ← t.clone true (some nid)
  match t2.root with
  | none => Except.ok (PKey.null, t2)
  | some r => do
    let k ← t.get_key r
    Except.ok (k, t2)

/-- The leaf filter of `Tree.leaves_ids` (`is_leaf` over the node map). -/
def Tree.leavesFilter (tree : Tree) : List String → Except Err (List String)
  | [] => Except.ok []
  | id1 :: rest => do
    let cids ← tree.children_ids id1
    let tail ← tree.leavesFilter rest
    Except.ok (if cids.length == 0 then id1 :: tail else tail)

/-- `Tree.leaves_ids`. -/
def Tree.leaves_ids (t : Tree) (nid : Option String) :
    Except Err (List String) := do
  let tree ← match nid with
    | none => Except.ok t
    | some n => do
      let s ← t.subtree n
      Except.ok s.2
  tree.leavesFilter tree.ids

/-- The insertion loop of `Tree._insert_tree_below`: the caller key replaces
the key of the first expanded node, the incoming root attaches under
`parent_id`, every other node below its parent in the incoming tree. -/
def Tree.itbLoop (new_tree : Tree) (parent_id : Option String) (key : PKey) :
    Bool → List (PKey × Node) → M Unit
  | _, [] => pure ()
  | isFirst, (new_key, new_node) :: rest => do
    let k := if isFirst then key else new_key
    let pid ← if some new_node.identifier = new_tree.root then pure parent_id
      else do
        let p ← M.liftE (new_tree.parent_id new_node.identifier)
        pure (some p)
    let _ ← Tree.insert_nodeBelow new_node pid k
    Tree.itbLoop new_tree parent_id key false rest

/-- `Tree._insert_tree_below` (by_path specialised to False). -/
def Tree.insert_tree_belowM (new_tree : Tree) (parent_id : Option String)
    (key : PKey) : M Unit := do
  let t ← M.get
  match parent_id with
  | none => if !t.is_empty then M.throw Err.multipleRoot else pure ()
  | some pid => do
    let _ ← M.liftE (t.ensure_present (some pid) false false)
    pure ()
  let t ← M.get
  let _ ← M.liftE (t.validate_tree_insertion new_tree)
  if new_tree.is_empty then pure ()
  else do
    let l ← M.liftE (new_tree.expandAll none)
    Tree.itbLoop new_tree parent_id key true l

/-- `Tree._drop_node`: physically removes a childless node from every index.
The parent entry is popped before the child indices are updated, matching
the mutation order of the source. -/
def Tree.drop_node_prim (nid : String) : M (PKey × Node) := do
  let t ← M.get
  let cids ← M.liftE (t.children_ids nid)
  if cids ≠ [] then M.throw Err.valueErr
  else do
    let kn ← M.liftE (t.getKN nid)
    if some nid ≠ t.root then do
      let pid ← M.liftE (t.parent_id nid)
      let pkn ← M.liftE (t.getKN pid)
      let parent_node := pkn.2
      M.set { t with nodes_parent := alpop t.nodes_parent nid }
      let t2 ← M.get
      if parent_node.keyed then
        if (alget (t2.childMap pid) nid).isNone then M.throw Err.keyErr
        else do
          let cm := alset t2.nodes_children_map pid (alpop (t2.childMap pid) nid)
          M.set { t2 with nodes_children_map := cm }
      else
        if !(t2.childList pid).contains nid then M.throw Err.valueErr
        else do
          let cl := alset t2.nodes_children_list pid ((t2.childList pid).erase nid)
          M.set { t2 with nodes_children_list := cl }
    else pure ()
    let t3 ← M.get
    let t4 :=
      if kn.2.keyed then
        { t3 with nodes_children_map := alpop t3.nodes_children_map nid }
      else
        { t3 with nodes_children_list := alpop t3.nodes_children_list nid }
    let t5 := { t4 with nodes_map := alpop t4.nodes_map nid }
    M.set (if some nid = t5.root then { t5 with root := none } else t5)
    pure kn

/-- `Tree.drop_node`, fuelled on the recursion over children (by_path
specialised to False). -/
def Tree.drop_nodeF : Nat → String → Bool → M (PKey × Node)
  | 0, _, _ => M.throw Err.fuel
  | fuel+1, nid, with_children => do
    let t ← M.get
    let _ ← M.liftE (t.ensure_present (some nid) false false)
    let cids ← M.liftE (t.children_ids nid)
    if with_children then do
      cids.forM (fun cid => do
        let _ ← Tree.drop_nodeF fuel cid true
        pure ())
      Tree.drop_node_prim nid
    else do
      -- drop a single node, re-attaching its children to its parent
      let rem ← M.liftE (t.subtree nid)
      if some nid = t.root && cids.length > 1 then M.throw Err.multipleRoot
      else do
        let pid ← M.liftE (t.parent_id nid)
        let pkn ← M.liftE (t.getKN pid)
        let kn ← M.liftE (t.getKN nid)
        if pkn.2.keyed != kn.2.keyed then M.throw Err.valueErr
        else do
          let _ ← Tree.drop_nodeF fuel nid true
          cids.forM (fun cid => do
            match rem.2.subtree cid with
            | Except.error e => M.throw e
            | Except.ok st =>
              Tree.insert_tree_belowM st.2 (some pid) st.1)
          pure (rem.1, kn.2)

/-- `Tree.drop_node` with enough fuel for any well-formed tree. -/
def Tree.drop_nodeM (nid : String) (with_children : Bool) : M (PKey × Node) :=
  fun t => Tree.drop_nodeF (t.size + 1) nid with_children t

/-- `Tree.drop_subtree` (by_path specialised to False). -/
def Tree.drop_subtreeM (nid : String) : M (PKey × Tree) := do
  let t ← M.get
  let _ ← M.liftE (t.ensure_present (some nid) false false)
  let st ← M.liftE (t.subtree nid)
  let _ ← Tree.drop_nodeM nid true
  pure st

/-- `Tree._insert_node_above`: detach the subtree at `child_id`, insert the
new node in the vacated slot, re-attach the subtree below it under `key`. -/
def Tree.insert_node_aboveM (node : Node) (child_id : String) (key : PKey) :
    M Unit := do
  let t ← M.get
  let _ ← M.liftE (t.ensure_present (some child_id) false false)
  -- try parent_id / except NotFoundNodeError (the only kind it raises)
  let hp : Option String :=
    match t.parent_id child_id with
    | Except.ok pid => some pid
    | Except.error _ => none
  let st ← Tree.drop_subtreeM child_id
  Tree.insert_node_below_raw node hp st.1
  Tree.insert_tree_belowM st.2 (some node.identifier) key

/-- `Tree.insert_node` (by_path specialised to False). -/
def Tree.insert_nodeM (node : Node) (parent_id child_id : Option String)
    (key : PKey) : M PKey := do
  let t ← M.get
  let _ ← M.liftE (t.validate_node_insertion node)
  if parent_id.isSome && child_id.isSome then M.throw Err.valueErr
  else match child_id with
  | some cid => do
    Tree.insert_node_aboveM node cid key
    pure PKey.null
  | none => do
    Tree.insert_node_below_raw node parent_id key
    M.lift (fun t2 => t2.get_key node.identifier)

/-- `Tree._insert_tree_above`: the incoming tree replaces the slot of
`child_id`, whose subtree re-attaches below `child_id_below` (or below the
unique leaf of the incoming tree). -/
def Tree.insert_tree_aboveM (new_tree : Tree) (child_id : String)
    (child_id_below : Option String) (key : PKey) : M Unit := do
  let t ← M.get
  let _ ← M.liftE (t.ensure_present (some child_id) false false)
  let cib ← match child_id_below with
    | some c => do
      let _ ← M.liftE (new_tree.ensure_present (some c) false false)
      pure c
    | none => do
      let leaves ← M.liftE (new_tree.leaves_ids none)
      if leaves.length > 1 then M.throw Err.valueErr
      else match leaves.getLast? with
        | some c => pure c
        | none => M.throw Err.indexErr
  let pid ← M.liftE (t.parent_id child_id)
  let st ← Tree.drop_subtreeM child_id
  Tree.insert_tree_belowM new_tree (some pid) st.1
  Tree.insert_tree_belowM st.2 (some cib) key

/-- `Tree.insert_tree` (by_path specialised to False). -/
def Tree.insert_treeM (new_tree : Tree)
    (parent_id child_id child_id_below : Option String) (key : PKey) :
    M PKey := do
  let t ← M.get
  let _ ← M.liftE (t.validate_tree_insertion new_tree)
  match new_tree.root with
  | none => M.throw Err.valueErr
  | some ntroot => do
    if parent_id.isSome && child_id.isSome then M.throw Err.valueErr
    else do
      match child_id with
      | some cid => Tree.insert_tree_aboveM new_tree cid child_id_below key
      | none => Tree.insert_tree_belowM new_tree parent_id key
      M.lift (fun t2 => t2.get_key ntroot)

/-- `Tree.merge` (by_path specialised to False; the incoming value is a
`Tree` by typing, so the class check of the source is vacuous). -/
def Tree.mergeM (new_tree : Tree) (nid : Option String) : M Unit := do
  let t ← M.get
  if t.is_empty then do
    -- insert(new_tree, parent_id=None) dispatches to insert_tree
    let _ ← Tree.insert_treeM new_tree none none none PKey.null
    pure ()
  else do
    let nid2 ← M.liftE (t.ensure_present nid true false)
    match new_tree.root with
    | none => M.throw Err.valueErr
    | some ntroot => do
      let chs ← M.liftE (new_tree.childrenKN ntroot)
      chs.forM (fun ck => do
        let st ← M.liftE (new_tree.subtree ck.2.identifier)
        let _ ← Tree.insert_treeM st.2 nid2 none none ck.1
        pure ())

/-- src/lighttree/utils.py `STYLES`: glyph triples
(vertical line, box, corner) per display style. -/
def STYLES (line_type : String) : Option (String × String × String) :=
  if line_type = "ascii" then some ("|", "|-- ", "+-- ")
  else if line_type = "ascii-ex" then some ("│", "├── ", "└── ")
  else if line_type = "ascii-exr" then some ("│", "├── ", "╰── ")
  else if line_type = "ascii-em" then some ("║", "╠══ ", "╚══ ")
  else if line_type = "ascii-emv" then some ("║", "╟── ", "╙── ")
  else if line_type = "ascii-emh" then some ("│", "╞══ ", "╘══ ")
  else none

/-- `Tree._line_prefix_repr`: tree-drawing prefix from the per-depth
is-last-sibling bits. -/
def line_pre_repr (line_type : String) (is_last_list : List Bool) :
    Except Err String :=
  match is_last_list with
  | [] => Except.ok ""
  | _ :: _ =>
    match STYLES line_type with
    | none => Except.error Err.keyErr
    | some sty =>
      let leading := String.join (is_last_list.dropLast.map
        (fun is_last => if !is_last then sty.1 ++ "   " else "    "))
      let lasting := if is_last_list.getLastD false then sty.2.2 else sty.2.1
      Except.ok (leading ++ lasting)

/-- `Tree._line_repr`: assemble one output line, right-padding a two-part
representation and truncating to `line_max_length` characters. -/
def line_repr_fn (pre : String) (is_key_displayed : Bool)
    (key_delimiter : String) (node_start node_end : String)
    (line_max_length : Nat) : String :=
  let line := pre
  let line := if node_start ≠ "" && is_key_displayed
    then line ++ key_delimiter else line
  let line := line ++ node_start
  let line := if node_end ≠ ""
    then line ++ String.mk (List.replicate
      (line_max_length - line.length - node_end.length) ' ') ++ node_end
    else line
  if line.length > line_max_length
    then line.take (line_max_length - 3) ++ "..." else line

/-- Whether `show` displays a key (`isinstance(key, str) and display_key`). -/
def keyShown (display_key : Bool) (k : PKey) : Bool :=
  match k with
  | PKey.str _ => display_key
  | _ => false

/-- The string of a displayed key. -/
def keyText (k : PKey) : String :=
  match k with
  | PKey.str s => s
  | _ => ""

/-- `Tree._iter_nodes_with_location`, fuelled: pre-order walk yielding each
retained node with its is-last-sibling bit vector.  A node failing the
filter hides its whole subtree. -/
def Tree.iterLoc (t : Tree) (filt : Option (Node → Bool)) (rev : Bool) :
    Nat → Option String → List Bool →
    Except Err (List (List Bool × PKey × Node))
  | 0, _, _ => Except.error Err.fuel
  | fuel+1, nid, is_last_list => do
    let nid ← t.ensure_present nid true true
    match nid with
    | none => Except.ok []
    | some nid => do
      let kn ← t.getKN nid
      if (match filt with | none => true | some f => f kn.2) then do
        let children ← t.childrenKN nid
        let children := children.filter
          (fun q => match filt with | none => true | some f => f q.2)
        let idxlast := children.length - 1
        let children := sortPairs rev children
        let chunks ← children.enum.mapM (fun p =>
          t.iterLoc filt rev fuel (some p.2.2.identifier)
            (is_last_list ++ [p.1 == idxlast]))
        Except.ok ((is_last_list, kn.1, kn.2) :: chunks.flatten)
      else Except.ok []

/-- One rendered line of `Tree.show`. -/
def showEntry (line_type : String) (display_key : Bool)
    (key_delimiter : String) (line_max_length : Nat)
    (e : List Bool × PKey × Node) : Except Err String := do
  let pre ← line_pre_repr line_type e.1
  let shown := keyShown display_key e.2.1
  let pre := if shown then pre ++ keyText e.2.1 else pre
  let nse := e.2.2.line_repr
  Except.ok (line_repr_fn pre shown key_delimiter nse.1 nse.2 line_max_length)

/-- The output loop of `Tree.show`: append each line, decrement the limit,
and emit the truncation marker with the total node count when it reaches
zero. -/
def Tree.showLoop (t : Tree) (line_type : String) (display_key : Bool)
    (key_delimiter : String) (line_max_length : Nat) :
    Option Int → List (List Bool × PKey × Node) → Except Err String
  | _, [] => Except.ok ""
  | limit, e :: rest => do
    let line ← showEntry line_type display_key key_delimiter line_max_length e
    match limit with
    | none => do
      let out ← t.showLoop line_type display_key key_delimiter
        line_max_length none rest
      Except.ok (line ++ "\n" ++ out)
    | some l =>
      if l - 1 == 0 then
        Except.ok (line ++ "\n" ++ "...\n(truncated, total number of nodes: "
          ++ toString t.size ++ ")\n")
      else do
        let out ← t.showLoop line_type display_key key_delimiter
          line_max_length (some (l - 1)) rest
        Except.ok (line ++ "\n" ++ out)

/-- `Tree.show` (by_path specialised to False). -/
def Tree.show (t : Tree) (nid : Option String) (filt : Option (Node → Bool))
    (display_key : Bool) (rev : Bool) (line_type : String)
    (limit : Option Int) (line_max_length : Nat) (key_delimiter : String) :
    Except Err String := do
  let entries ← t.iterLoc filt rev (t.size + 1) nid []
  t.showLoop line_type display_key key_delimiter line_max_length limit entries

/-- `show()` with every argument at its default. -/
def Tree.showDefault (t : Tree) (limit : Option Int) : Except Err String :=
  t.show none none true false "ascii-ex" limit 60 ": "

instance {ε α : Type} [DecidableEq ε] [DecidableEq α] :
    DecidableEq (Except ε α) := fun x y =>
  match x, y with
  | Except.ok a, Except.ok b =>
    if h : a = b then isTrue (by rw [h])
    else isFalse (fun hh => h (Except.ok.inj hh))
  | Except.error a, Except.error b =>
    if h : a = b then isTrue (by rw [h])
    else isFalse (fun hh => h (Except.error.inj hh))
  | Except.ok _, Except.error _ => isFalse (fun hh => Except.noConfusion hh)
  | Except.error _, Except.ok _ => isFalse (fun hh => Except.noConfusion hh)

/-! ### Structural invariants of the specification (section 3, A-F) -/

/-- Child ids of a node: the keyed index for a keyed node, the ordered index
otherwise (the pure core of `children_ids`). -/
def Tree.kids (t : Tree) (p : String) : List String :=
  match t.getNode p with
  | some n => if n.keyed then alkeys (t.childMap p) else t.childList p
  | none => []

/-- Invariant A (uniqueness): every identifier appears at most once in the
node map. -/
def InvariantA (t : Tree) : Prop := t.ids.Nodup

/-- Invariant B (single root): the root, if any, is a parentless node of the
tree; every other node has a parent entry; an empty root means no nodes. -/
def InvariantB (t : Tree) : Prop :=
  (∀ r, t.root = some r → r ∈ t.ids ∧ t.parentOf r = none) ∧
  (∀ id ∈ t.ids, some id ≠ t.root → (t.parentOf id).isSome = true) ∧
  (t.root = none → t.ids = [])

/-- Invariant C (parent/child symmetry): parent entries point into the tree
and agree with the child index of the parent, and vice versa. -/
def InvariantC (t : Tree) : Prop :=
  (∀ pr ∈ t.nodes_parent, pr.1 ∈ t.ids ∧ pr.2 ∈ t.ids ∧ pr.1 ∈ t.kids pr.2) ∧
  (∀ p ∈ t.ids, ∀ c ∈ t.kids p, t.parentOf c = some p ∧ c ∈ t.ids)

/-- Invariant D (homogeneous keying): the children of a keyed node carry
pairwise distinct string keys.  (Density of list positions is automatic in
the list representation, exactly as in the source.) -/
def InvariantD (t : Tree) : Prop :=
  ∀ p ∈ t.ids, ((t.childMap p).map (fun q => q.2)).Nodup

/-- Invariant E (acyclicity): following parent links from any node reaches
the root in at most `size` steps. -/
def chainF (t : Tree) : Nat → String → Option (List String)
  | 0, _ => none
  | fuel+1, nid =>
    if some nid = t.root then some [nid]
    else
      match t.parentOf nid with
      | none => none
      | some p =>
        match chainF t fuel p with
        | some l => some (nid :: l)
        | none => none

/-- Invariant E as a predicate. -/
def InvariantE (t : Tree) : Prop :=
  ∀ id ∈ t.ids, (chainF t (t.size + 1) id).isSome = true

/-- Invariant F (leaf children): a node refusing children has none. -/
def InvariantF (t : Tree) : Prop :=
  ∀ p ∈ t.ids, ∀ n, t.getNode p = some n → n.accept_children = false →
    t.kids p = []

/-- Invariants A-F of the specification, conjoined. -/
def SpecInvariants (t : Tree) : Prop :=
  InvariantA t ∧ InvariantB t ∧ InvariantC t ∧ InvariantD t ∧
  InvariantE t ∧ InvariantF t

instance (t : Tree) : Decidable (InvariantA t) := by
  unfold InvariantA; infer_instance

instance (t : Tree) : Decidable (InvariantB t) := by
  unfold InvariantB; infer_instance

instance (t : Tree) : Decidable (InvariantC t) := by
  unfold InvariantC; infer_instance

instance (t : Tree) : Decidable (InvariantD t) := by
  unfold InvariantD; infer_instance

instance (t : Tree) : Decidable (InvariantE t) := by
  unfold InvariantE; infer_instance

instance (t : Tree) : Decidable (InvariantF t) := by
  unfold InvariantF; infer_instance

instance (t : Tree) : Decidable (SpecInvariants t) := by
  unfold SpecInvariants; infer_instance

/-! ### Concrete trees used by the claims -/

/-- Shorthand node constructor (no display override). -/
def mkN (id : String) (keyed ac : Bool) (d : Option String) : Node :=
  ⟨id, keyed, ac, none, d⟩

/-- The scenario-1 tree of the specification (section 8), built through the
public insertion API: keyed root, keyed child a (with ordered child aa
holding leaves AA0 AA1, and keyed child ab under key b), ordered child c
with leaves C0 C1 - nine nodes. -/
def scenario1Build : Except Err Unit × Tree :=
  (do
    let _ ← Tree.insert_nodeM (mkN "root" true true none) none none PKey.null
    let _ ← Tree.insert_nodeM (mkN "a" true true none) (some "root") none
      (PKey.str "a")
    let _ ← Tree.insert_nodeM (mkN "aa" false true none) (some "a") none
      (PKey.str "a")
    let _ ← Tree.insert_nodeM (mkN "aa0" true false (some "AA0")) (some "aa")
      none PKey.null
    let _ ← Tree.insert_nodeM (mkN "aa1" true false (some "AA1")) (some "aa")
      none PKey.null
    let _ ← Tree.insert_nodeM (mkN "ab" true true none) (some "a") none
      (PKey.str "b")
    let _ ← Tree.insert_nodeM (mkN "c" false true none) (some "root") none
      (PKey.str "c")
    let _ ← Tree.insert_nodeM (mkN "c0" true false (some "C0")) (some "c")
      none PKey.null
    let _ ← Tree.insert_nodeM (mkN "c1" true false (some "C1")) (some "c")
      none PKey.null
    pure () : M Unit) Tree.empty

/-- The scenario-1 tree itself. -/
def scenario1 : Tree := scenario1Build.2

/-- An operation sequence exercising the duplicate-key guard: a keyed root
and two children inserted under the same key "k". -/
def dupKeySeq : Except Err Unit × Tree :=
  (do
    let _ ← Tree.insert_nodeM (mkN "r" true true none) none none PKey.null
    let _ ← Tree.insert_nodeM (mkN "x" true true none) (some "r") none
      (PKey.str "k")
    let _ ← Tree.insert_nodeM (mkN "y" true true none) (some "r") none
      (PKey.str "k")
    pure () : M Unit) Tree.empty

/-- The same sequence stopped before the third insert: keyed root r with a
single child x under key "k".  All invariants still hold here, so the final
insert of `dupKeySeq` is the step that breaks them. -/
def dupKeyPrefix : Except Err Unit × Tree :=
  (do
    let _ ← Tree.insert_nodeM (mkN "r" true true none) none none PKey.null
    let _ ← Tree.insert_nodeM (mkN "x" true true none) (some "r") none
      (PKey.str "k")
    pure () : M Unit) Tree.empty

/-- A reachable "clash" tree: under the keyed root, the child inserted
first has key "k", the child inserted second has identifier "k" (and key
"a").  Both insertions pass the guard of `_insert_node_below`, which tests
keys against child identifiers. -/
def clashTree : Except Err Unit × Tree :=
  (do
    let _ ← Tree.insert_nodeM (mkN "r" true true none) none none PKey.null
    let _ ← Tree.insert_nodeM (mkN "z" true true none) (some "r") none
      (PKey.str "k")
    let _ ← Tree.insert_nodeM (mkN "k" true true none) (some "r") none
      (PKey.str "a")
    pure () : M Unit) Tree.empty

/-- Round trip on the clash tree: drop the subtree at z (key "k"), then
re-insert it below its former parent r under its former key "k". -/
def clashRoundTrip : Except Err Unit × Tree :=
  (do
    let st ← Tree.drop_subtreeM "z"
    let _ ← Tree.insert_treeM st.2 (some "r") none none st.1
    pure () : M Unit) clashTree.2

/-- Inserting a fresh node above z (key "w") on the clash tree. -/
def clashInsertAbove : Except Err PKey × Tree :=
  (Tree.insert_nodeM (mkN "mid" true true none) none (some "z")
    (PKey.str "w")) clashTree.2

/-- A tree where the unkeyed node L sits under the keyed root (keyed-ness
mismatch) and L's keyed descendant K holds a key/identifier clash. -/
def mismatchClashTree : Except Err Unit × Tree :=
  (do
    let _ ← Tree.insert_nodeM (mkN "r" true true none) none none PKey.null
    let _ ← Tree.insert_nodeM (mkN "L" false true none) (some "r") none
      (PKey.str "l")
    let _ ← Tree.insert_nodeM (mkN "K" true true none) (some "L") none
      PKey.null
    let _ ← Tree.insert_nodeM (mkN "z" true true none) (some "K") none
      (PKey.str "k")
    let _ ← Tree.insert_nodeM (mkN "k" true true none) (some "K") none
      (PKey.str "a")
    pure () : M Unit) Tree.empty

/-- A tree whose root has a single child holding a key/identifier clash
below it. -/
def rootClashTree : Except Err Unit × Tree :=
  (do
    let _ ← Tree.insert_nodeM (mkN "r" true true none) none none PKey.null
    let _ ← Tree.insert_nodeM (mkN "K" true true none) (some "r") none
      (PKey.str "x")
    let _ ← Tree.insert_nodeM (mkN "z" true true none) (some "K") none
      (PKey.str "k")
    let _ ← Tree.insert_nodeM (mkN "k" true true none) (some "K") none
      (PKey.str "a")
    pure () : M Unit) Tree.empty

/-- A two-node receiver: keyed root r with child x under key "a". -/
def mergeReceiver : Tree :=
  ((do
    let _ ← Tree.insert_nodeM (mkN "r" true true none) none none PKey.null
    let _ ← Tree.insert_nodeM (mkN "x" true true none) (some "r") none
      (PKey.str "a")
    pure () : M Unit) Tree.empty).2

/-- An incoming tree whose root carries the identifier "r", already present
in the receiver; its only other node is fresh. -/
def mergeIncomingRootDup : Tree :=
  ((do
    let _ ← Tree.insert_nodeM (mkN "r" true true none) none none PKey.null
    let _ ← Tree.insert_nodeM (mkN "c" true true none) (some "r") none
      (PKey.str "k")
    pure () : M Unit) Tree.empty).2

/-- An incoming tree with two root children: the first subtree is fresh, the
second is the duplicate "x" (present in the receiver). -/
def mergeIncomingDeepDup : Tree :=
  ((do
    let _ ← Tree.insert_nodeM (mkN "n" true true none) none none PKey.null
    let _ ← Tree.insert_nodeM (mkN "c1" true true none) (some "n") none
      (PKey.str "k1")
    let _ ← Tree.insert_nodeM (mkN "x" true true none) (some "n") none
      (PKey.str "k2")
    pure () : M Unit) Tree.empty).2

/-! ### Rendering lemmas for C8 -/

/-- Concatenation of rendered lines, each followed by a newline. -/
def catLines (ls : List String) : String :=
  ls.foldr (fun s acc => s ++ "\n" ++ acc) ""

/-- The truncation marker appended by `show` when the limit runs out. -/
def truncMarker (t : Tree) : String :=
  "...\n(truncated, total number of nodes: " ++ toString t.size ++ ")\n"

/-- The rendered lines of a list of traversal entries. -/
def linesOf (line_type : String) (display_key : Bool) (key_delimiter : String)
    (line_max_length : Nat) (entries : List (List Bool × PKey × Node)) :
    Except Err (List String) :=
  entries.mapM (showEntry line_type display_key key_delimiter line_max_length)

/-- A minimal keyed-ness mismatch: keyed root r with unkeyed child L. -/
def mismatchSimpleTree : Tree :=
  ((do
    let _ ← Tree.insert_nodeM (mkN "r" true true none) none none PKey.null
    let _ ← Tree.insert_nodeM (mkN "L" false true none) (some "r") none
      (PKey.str "l")
    pure () : M Unit) Tree.empty).2

/-! ### Well-formedness hypotheses used by the traversal claims -/

/-- Every stored node records its own map key as identifier. -/
def Tree.idConsB (t : Tree) : Bool :=
  t.nodes_map.all (fun pr => pr.2.identifier == pr.1)

/-- The root, when present, is a parentless node; an absent root means an
empty node map. -/
def Tree.rootOkB (t : Tree) : Bool :=
  match t.root with
  | none => t.nodes_map.isEmpty
  | some r => t.contains r && (t.parentOf r).isNone

/-- Every non-root node has a parent entry. -/
def Tree.parentTotalB (t : Tree) : Bool :=
  t.ids.all (fun id => (some id == t.root) || (t.parentOf id).isSome)

/-- Parent entries point into the tree and are mirrored by the child
index. -/
def Tree.parentLinkB (t : Tree) : Bool :=
  t.ids.all (fun id =>
    match t.parentOf id with
    | none => true
    | some p => t.contains p && (t.kids p).contains id)

/-- Child entries point into the tree and are mirrored by the parent
index. -/
def Tree.kidLinkB (t : Tree) : Bool :=
  t.ids.all (fun p =>
    (t.kids p).all (fun c => t.contains c && (t.parentOf c == some p)))

/-- No node lists the same child twice. -/
def Tree.kidsNodupB (t : Tree) : Bool :=
  t.ids.all (fun p => (t.kids p).Nodup)

/-- Every node reaches the root along parent links within `size` steps. -/
def Tree.chainOkB (t : Tree) : Bool :=
  t.ids.all (fun id => (chainF t (t.size + 1) id).isSome)

/-- Well-formedness: the hypotheses under which the traversal claims are
settled - identifier uniqueness and consistency, a single rooted component
with mutually mirroring parent/child indices and no duplicate children.
These are the invariants the specification assumes of every tree (section
3); they are decidable, so witnesses check them by evaluation. -/
def Tree.WF (t : Tree) : Prop :=
  t.ids.Nodup ∧ t.idConsB = true ∧ t.rootOkB = true ∧
  t.parentTotalB = true ∧ t.parentLinkB = true ∧ t.kidLinkB = true ∧
  t.kidsNodupB = true ∧ t.chainOkB = true

instance (t : Tree) : Decidable (Tree.WF t) := by
  unfold Tree.WF; infer_instance

/-! ### Ancestor chains -/

/-- The ancestor chain of a node (itself first, the root last), canonical
fuel. -/
def Tree.chainD (t : Tree) (id : String) : List String :=
  (chainF t (t.size + 1) id).getD []

/-! ### The work-list measure of the traversal loop -/

/-- A node d lies below one of the listed nodes (one of them is on d's
ancestor chain). -/
def inSubL (t : Tree) (l : List String) (d : String) : Prop :=
  ∃ a ∈ l, a ∈ t.chainD d

instance (t : Tree) (l : List String) (d : String) :
    Decidable (inSubL t l d) := by
  unfold inSubL; infer_instance

/-- Number of tree nodes below the listed nodes. -/
def qMeasure (t : Tree) (l : List String) : Nat :=
  t.ids.countP (fun d => decide (inSubL t l d))

/-- Invariant of the traversal work list: entries are distinct,
pairwise-incomparable tree nodes. -/
def QInv (t : Tree) (l : List String) : Prop :=
  (∀ a ∈ l, a ∈ t.ids) ∧ l.Nodup ∧
  l.Pairwise (fun a b => a ∉ t.chainD b ∧ b ∉ t.chainD a)

/-- The identifier of a traversal pair. -/
def idOf (q : PKey × Node) : String := q.2.identifier

/-! ### The incoming bare-root tree of the merge exemption -/

/-- An incoming tree consisting of one keyed node carrying the identifier
"r", the root identifier of the receiver. -/
def mergeIncomingBareRoot : Tree :=
  ((do
    let _ ← Tree.insert_nodeM (mkN "r" true true none) none none PKey.null
    pure () : M Unit) Tree.empty).2

/-! ### Theorems -/

theorem M.bind_def {α β : Type} (x : M α) (f : α → M β) (t : Tree) :
    (x >>= f) t =
      match x t with
      | (Except.ok a, t2) => f a t2
      | (Except.error e, t2) => (Except.error e, t2) := rfl

theorem M.pure_def {α : Type} (a : α) (t : Tree) :
    (pure a : M α) t = (Except.ok a, t) := rfl

/-! ### Generic lemmas on Except -/

@[simp] theorem ebind_ok {α β : Type} (a : α) (f : α → Except Err β) :
    (Except.ok a >>= f) = f a := rfl

@[simp] theorem ebind_err {α β : Type} (e : Err) (f : α → Except Err β) :
    ((Except.error e : Except Err α) >>= f) = Except.error e := rfl

@[simp] theorem epure_eq {α : Type} (a : α) :
    (pure a : Except Err α) = Except.ok a := rfl

theorem exceptBind_ok {α β : Type} {x : Except Err α} {f : α → Except Err β}
    {b : β} (h : (x >>= f) = Except.ok b) :
    ∃ a, x = Except.ok a ∧ f a = Except.ok b := by
  cases x with
  | ok a => exact ⟨a, rfl, h⟩
  | error e => exact absurd h (by simp)

theorem showLoop_none_eq (t : Tree) (lt : String) (dk : Bool) (kd : String)
    (lml : Nat) (entries : List (List Bool × PKey × Node)) (ls : List String)
    (h : linesOf lt dk kd lml entries = Except.ok ls) :
    t.showLoop lt dk kd lml none entries = Except.ok (catLines ls) := by
  induction entries generalizing ls with
  | nil =>
    simp only [linesOf, List.mapM_nil, epure_eq] at h
    cases h
    rfl
  | cons e rest ih =>
    simp only [linesOf, List.mapM_cons] at h
    obtain ⟨line, hline, h2⟩ := exceptBind_ok h
    obtain ⟨ls2, hls2, h3⟩ := exceptBind_ok h2
    simp only [epure_eq] at h3
    cases h3
    have ihr := ih ls2 hls2
    simp only [Tree.showLoop, hline, ebind_ok, ihr]
    rfl

theorem showLoop_some_eq (t : Tree) (lt : String) (dk : Bool) (kd : String)
    (lml : Nat) (entries : List (List Bool × PKey × Node)) (ls : List String)
    (N : Int) (h : linesOf lt dk kd lml entries = Except.ok ls)
    (h1 : 0 < N) (h2 : N.toNat < ls.length) :
    t.showLoop lt dk kd lml (some N) entries =
      Except.ok (catLines (ls.take N.toNat) ++ truncMarker t) := by
  induction entries generalizing ls N with
  | nil =>
    simp only [linesOf, List.mapM_nil, epure_eq] at h
    cases h
    simp at h2
  | cons e rest ih =>
    simp only [linesOf, List.mapM_cons] at h
    obtain ⟨line, hline, hh2⟩ := exceptBind_ok h
    obtain ⟨ls2, hls2, h3⟩ := exceptBind_ok hh2
    simp only [epure_eq] at h3
    cases h3
    by_cases hN : N = 1
    · subst hN
      simp only [Tree.showLoop, hline, ebind_ok]
      rw [if_pos (by decide)]
      simp only [List.take_succ_cons, Int.toNat_one, List.take_zero, catLines,
        truncMarker, List.foldr, String.append_assoc]
      rfl
    · have hN1 : ¬ (N - 1 == 0) = true := by
        simp only [beq_iff_eq]
        omega
      have hgt : (0:Int) < N - 1 := by omega
      have hlen : (N - 1).toNat < ls2.length := by
        simp only [List.length_cons] at h2
        omega
      have ihr := ih ls2 (N - 1) hls2 hgt hlen
      simp only [Tree.showLoop, hline, ebind_ok, ihr]
      rw [if_neg hN1]
      have htake : N.toNat = (N - 1).toNat + 1 := by omega
      rw [htake]
      simp [catLines, truncMarker, String.append_assoc]

/-! ### Claim theorems (concrete phase) -/

/-- C10: two `Node` values are equal exactly when their identifiers are
equal - `Node.__eq__` ignores the keyed flag, the accepts-children flag,
the display string and the payload, so two nodes with the same identifier
but different payloads compare equal. -/
theorem C10_node_eq_by_identifier (a b : Node) :
    Node.eq a b = true ↔ a.identifier = b.identifier := by
  simp [Node.eq]

/-- C2 (failing evidence): the three-step insertion sequence from the empty
tree - keyed root r, child x under key "k", child y under the same key
"k" - succeeds, yet the resulting tree violates Invariant D (children of a
keyed node carry unique string keys): the duplicate-key guard of
`_insert_node_below` tests the key against the child identifiers instead of
the existing keys, so the second "k" is accepted.  The two-insert prefix of
the sequence still satisfies Invariants A-F, so the guarded insert alone
carries a valid tree into an invalid one. -/
theorem C2_invariantD_violated_by_duplicate_key :
    dupKeyPrefix.1 = Except.ok () ∧ SpecInvariants dupKeyPrefix.2 ∧
    dupKeySeq.1 = Except.ok () ∧
    dupKeySeq.2.childMap "r" = [("x", "k"), ("y", "k")] ∧
    ¬ InvariantD dupKeySeq.2 ∧ ¬ SpecInvariants dupKeySeq.2 := by decide

/-- C3 (failing evidence): on the reachable clash tree (child z under key
"k", sibling with identifier "k"), which satisfies Invariants A-F,
`drop_subtree("z")` followed by `insert_tree(result, parent_id="r",
key="k")` does not restore the tree: the re-insertion raises KeyError
because the faulty duplicate-key guard mistakes the sibling identifier "k"
for an occupied key, and z stays missing. -/
theorem C3_roundtrip_fails_on_clash :
    clashTree.1 = Except.ok () ∧ SpecInvariants clashTree.2 ∧
    clashRoundTrip.1 = Except.error Err.keyErr ∧
    clashRoundTrip.2.contains "z" = false := by decide

/-- C4 (failing evidence): on the same clash tree, inserting a fresh node
above z with key "w" raises KeyError after the subtree at z has been
detached: the new node is never placed in the vacated slot (the guard
mistakes the sibling identifier "k" for the slot key) and the tree is left
without z and without the new node. -/
theorem C4_insert_above_fails_on_clash :
    clashTree.1 = Except.ok () ∧ SpecInvariants clashTree.2 ∧
    clashInsertAbove.1 = Except.error Err.keyErr ∧
    clashInsertAbove.2.contains "z" = false ∧
    clashInsertAbove.2.contains "mid" = false := by decide

/-- C1 (counterexample): both halves of the claim fail on the code.  An
incoming tree whose root identifier "r" already exists in the receiver
merges successfully (the incoming root is discarded and never checked), and
an incoming tree whose duplicate sits in the second root-child subtree
fails with DuplicateId but leaves the receiver changed (the first subtree
was already inserted): validation is per root-child subtree, not global. -/
theorem C1_merge_counterexample :
    SpecInvariants mergeReceiver ∧ SpecInvariants mergeIncomingRootDup ∧
    mergeReceiver.contains "r" = true ∧ "r" ∈ mergeIncomingRootDup.ids ∧
    (Tree.mergeM mergeIncomingRootDup none mergeReceiver).1 =
      Except.ok () ∧
    SpecInvariants mergeIncomingDeepDup ∧
    mergeReceiver.contains "x" = true ∧ "x" ∈ mergeIncomingDeepDup.ids ∧
    (Tree.mergeM mergeIncomingDeepDup none mergeReceiver).1 =
      Except.error Err.duplicatedNode ∧
    (Tree.mergeM mergeIncomingDeepDup none mergeReceiver).2 ≠
      mergeReceiver := by decide

/-- C8: on any tree, when the full default rendering produces the line list
`ls` and the positive limit N is smaller than the number of rendered lines,
`show(limit=N)` outputs exactly the first N node lines followed by the
truncation marker reporting the full node count. -/
theorem C8_show_limit_truncates (t : Tree) (N : Int)
    (entries : List (List Bool × PKey × Node)) (ls : List String)
    (h0 : t.iterLoc none false (t.size + 1) none [] = Except.ok entries)
    (h : linesOf "ascii-ex" true ": " 60 entries = Except.ok ls)
    (h1 : 0 < N) (h2 : N.toNat < ls.length) :
    t.showDefault (some N) =
      Except.ok (catLines (ls.take N.toNat) ++ truncMarker t) := by
  unfold Tree.showDefault Tree.show
  simp only [h0, ebind_ok]
  exact showLoop_some_eq t "ascii-ex" true ": " 60 entries ls N h h1 h2

/-- Witness for C8: the scenario-1 tree has nine nodes and
`show(limit=3)` truncates after three lines, reporting total count 9. -/
theorem C8_show_limit_truncates_witness :
    (0:Int) < 3 ∧ scenario1.size = 9 ∧
    scenario1.showDefault (some 3) = Except.ok
      "\x7b\x7d\n├── a: \x7b\x7d\n│   ├── a: []\n...\n(truncated, total number of nodes: 9)\n" := by
  refine ⟨by decide, by decide, ?_⟩
  exact C8_show_limit_truncates scenario1 3 _ _ rfl rfl (by decide) (by decide)

/-! ### Evaluation lemmas for the stateful monad -/

@[simp] theorem mrun_liftE {α : Type} (x : Except Err α) (t : Tree) :
    M.liftE x t = (x, t) := rfl

@[simp] theorem mrun_lift {α : Type} (f : Tree → Except Err α) (t : Tree) :
    M.lift f t = (f t, t) := rfl

@[simp] theorem mrun_get (t : Tree) : M.get t = (Except.ok t, t) := rfl

@[simp] theorem mrun_set (t2 t : Tree) : M.set t2 t = (Except.ok (), t2) := rfl

@[simp] theorem mrun_throw {α : Type} (e : Err) (t : Tree) :
    (M.throw e : M α) t = (Except.error e, t) := rfl

@[simp] theorem mrun_pure {α : Type} (a : α) (t : Tree) :
    (pure a : M α) t = (Except.ok a, t) := rfl

/-! ### Success of the root-level queries -/

theorem contains_getNode {t : Tree} {r : String} (h : t.contains r = true) :
    ∃ n, t.getNode r = some n := by
  unfold Tree.contains at h
  cases hn : t.getNode r with
  | some n => exact ⟨n, rfl⟩
  | none => rw [hn] at h; simp [Option.isSome] at h

theorem ensure_present_ok {t : Tree} {r : String} (h : t.contains r = true)
    (dr ae : Bool) :
    t.ensure_present (some r) dr ae = Except.ok (some r) := by
  simp [Tree.ensure_present, h]

theorem get_key_root {t : Tree} {r : String} (hroot : t.root = some r)
    (hcont : t.contains r = true) : t.get_key r = Except.ok PKey.null := by
  unfold Tree.get_key Tree.get_keyF
  simp [ensure_present_ok hcont, hroot]

theorem getKN_root {t : Tree} {r : String} {n : Node}
    (hroot : t.root = some r) (hcont : t.contains r = true)
    (hn : t.getNode r = some n) :
    t.getKN r = Except.ok (PKey.null, n) := by
  unfold Tree.getKN
  simp [ensure_present_ok hcont, get_key_root hroot hcont, hn]

theorem children_ids_root {t : Tree} {r : String}
    (hroot : t.root = some r) (hcont : t.contains r = true) :
    t.children_ids r = Except.ok (t.kids r) := by
  obtain ⟨n, hn⟩ := contains_getNode hcont
  unfold Tree.children_ids
  simp only [getKN_root hroot hcont hn, ebind_ok]
  unfold Tree.kids
  rw [hn]
  by_cases hk : n.keyed <;> simp [hk]

/-- Rebase-dropping the root, evaluated: once the preliminary subtree
extraction succeeds, the MultipleRoot check fires for more than one child
and the parent lookup of the root raises NotFound otherwise; the state is
untouched either way. -/
theorem drop_root_rebase_eval {t : Tree} {r : String} {k : PKey} {st : Tree}
    (hroot : t.root = some r) (hcont : t.contains r = true)
    (hsub : t.subtree r = Except.ok (k, st)) :
    Tree.drop_nodeM r false t =
      (Except.error
        (if 1 < (t.kids r).length then Err.multipleRoot else Err.notFound),
       t) := by
  have hens := ensure_present_ok hcont false false
  have hcids := children_ids_root hroot hcont
  have hpid : t.parent_id r = Except.error Err.notFound := by
    unfold Tree.parent_id
    rw [if_pos hroot.symm]
  show Tree.drop_nodeF (t.size + 1) r false t = _
  unfold Tree.drop_nodeF
  by_cases hl : 1 < (t.kids r).length <;>
    simp [M.bind_def, hens, hcids, hsub, hpid, hroot, hl]

/-- Rebase-dropping the root when the subtree extraction itself raises: the
exception propagates with the state untouched. -/
theorem drop_root_rebase_sub_err {t : Tree} {r : String} {e : Err}
    (hcont : t.contains r = true) (hroot : t.root = some r)
    (hsub : t.subtree r = Except.error e) :
    Tree.drop_nodeM r false t = (Except.error e, t) := by
  have hens := ensure_present_ok hcont false false
  have hcids := children_ids_root hroot hcont
  show Tree.drop_nodeF (t.size + 1) r false t = _
  unfold Tree.drop_nodeF
  simp [M.bind_def, hens, hcids, hsub]

/-- C9: on every non-empty tree, drop_node(root, with_children=False)
fails and leaves the tree unchanged; whenever the preliminary subtree
extraction succeeds the error is MultipleRoot if the root has more than one
child and NotFound (from the root's parent lookup) otherwise - rebase-
dropping the root never succeeds.  (The extraction step itself can instead
raise KeyError on trees whose faulty duplicate-key guard fires, see the
counterexample; the failure and the untouched state persist even then.) -/
theorem C9_drop_root_rebase_always_fails (t : Tree) (r : String)
    (hroot : t.root = some r) (hcont : t.contains r = true) :
    (∃ e, Tree.drop_nodeM r false t = (Except.error e, t)) ∧
    (∀ k st, t.subtree r = Except.ok (k, st) →
      Tree.drop_nodeM r false t =
        (Except.error
          (if 1 < (t.kids r).length then Err.multipleRoot else Err.notFound),
         t)) := by
  constructor
  · cases hs : t.subtree r with
    | ok p =>
      exact ⟨_, drop_root_rebase_eval hroot hcont
        (show t.subtree r = Except.ok (p.1, p.2) by rw [hs])⟩
    | error e => exact ⟨e, drop_root_rebase_sub_err hcont hroot hs⟩
  · intro k st hsub
    exact drop_root_rebase_eval hroot hcont hsub

/-- Witness for C9: the two-node receiver tree (root r, single child x):
the rebase drop of the root fails with NotFound and leaves it unchanged. -/
theorem C9_drop_root_rebase_witness :
    Tree.drop_nodeM "r" false mergeReceiver =
      (Except.error Err.notFound, mergeReceiver) := by
  have h := (C9_drop_root_rebase_always_fails mergeReceiver "r" rfl
    (by decide)).2 _ _ rfl
  exact h

/-- C9 (counterexample to the claimed error kinds): on the reachable
root-clash tree the root has exactly one child, yet the rebase drop fails
with KeyError (raised inside the preliminary subtree extraction by the
faulty duplicate-key guard), not NotFound; the tree is still unchanged. -/
theorem C9_error_kind_counterexample :
    rootClashTree.1 = Except.ok () ∧
    (rootClashTree.2.kids "r").length = 1 ∧
    Tree.drop_nodeM "r" false rootClashTree.2 =
      (Except.error Err.keyErr, rootClashTree.2) := by decide

/-! ### Query-success lemmas below a non-root node -/

theorem parent_id_ok {t : Tree} {nid pid : String}
    (hnr : some nid ≠ t.root) (hcont : t.contains nid = true)
    (hp : t.parentOf nid = some pid) :
    t.parent_id nid = Except.ok pid := by
  unfold Tree.parent_id
  rw [if_neg hnr]
  simp [ensure_present_ok hcont, hp]

theorem get_keyF_mono {t : Tree} :
    ∀ {f : Nat} {nid : String} {k : PKey}, t.get_keyF f nid = Except.ok k →
      t.get_keyF (f + 1) nid = Except.ok k := by
  intro f
  induction f with
  | zero => intro nid k h; exact absurd h (by simp [Tree.get_keyF])
  | succ f ih =>
    intro nid k h
    unfold Tree.get_keyF at h ⊢
    obtain ⟨u, hu, h⟩ := exceptBind_ok h
    rw [hu]
    simp only [ebind_ok]
    by_cases hr : some nid = t.root
    · rw [if_pos hr] at h ⊢
      exact h
    · rw [if_neg hr] at h ⊢
      obtain ⟨pid, hpid, h⟩ := exceptBind_ok h
      obtain ⟨u2, hu2, h⟩ := exceptBind_ok h
      obtain ⟨k2, hk2, h⟩ := exceptBind_ok h
      rw [hpid]
      simp only [ebind_ok]
      rw [hu2]
      simp only [ebind_ok]
      rw [ih hk2]
      simp only [ebind_ok]
      exact h

theorem subtree_ok_expand {t : Tree} {nid : String} {k : PKey} {st : Tree}
    (h : t.subtree nid = Except.ok (k, st)) :
    ∃ l, t.expandAll (some nid) = Except.ok l := by
  unfold Tree.subtree at h
  obtain ⟨t2, ht2, _⟩ := exceptBind_ok h
  unfold Tree.clone at ht2
  simp only [Bool.not_true, Bool.false_eq_true, if_false] at ht2
  obtain ⟨l, hl, _⟩ := exceptBind_ok ht2
  exact ⟨l, hl⟩

theorem expandAll_ok_inv {t : Tree} {nid : String}
    {l : List (PKey × Node)} (hcont : t.contains nid = true)
    (h : t.expandAll (some nid) = Except.ok l) :
    ∃ kn q, t.getKN nid = Except.ok kn ∧ t.childrenKN nid = Except.ok q := by
  unfold Tree.expandAll Tree.expand_tree at h
  rw [if_neg (by decide)] at h
  simp only [ensure_present_ok hcont true true, ebind_ok] at h
  obtain ⟨kn, hkn, h⟩ := exceptBind_ok h
  simp only [passes, Bool.or_false, if_true] at h
  obtain ⟨q, hq, _⟩ := exceptBind_ok h
  exact ⟨kn, q, hkn, hq⟩

theorem childrenKN_ok_inv {t : Tree} {nid : String} {q : List (PKey × Node)}
    (h : t.childrenKN nid = Except.ok q) :
    ∃ cids, t.children_ids nid = Except.ok cids := by
  unfold Tree.childrenKN at h
  obtain ⟨cids, hc, _⟩ := exceptBind_ok h
  exact ⟨cids, hc⟩

theorem getKN_ok_inv {t : Tree} {nid : String} {kn : PKey × Node}
    (h : t.getKN nid = Except.ok kn) :
    t.get_key nid = Except.ok kn.1 ∧ t.getNode nid = some kn.2 := by
  unfold Tree.getKN at h
  obtain ⟨u, hu, h⟩ := exceptBind_ok h
  obtain ⟨k, hk, h⟩ := exceptBind_ok h
  cases hn : t.getNode nid with
  | some n =>
    rw [hn] at h
    cases h
    exact ⟨hk, rfl⟩
  | none => rw [hn] at h; cases h

theorem get_key_parent_ok {t : Tree} {nid pid : String} {k : PKey}
    (hnr : some nid ≠ t.root) (hcont : t.contains nid = true)
    (hp : t.parentOf nid = some pid)
    (h : t.get_key nid = Except.ok k) :
    ∃ k2, t.get_key pid = Except.ok k2 := by
  unfold Tree.get_key at h ⊢
  unfold Tree.get_keyF at h
  obtain ⟨u, hu, h⟩ := exceptBind_ok h
  rw [if_neg hnr] at h
  obtain ⟨pid2, hpid2, h⟩ := exceptBind_ok h
  rw [parent_id_ok hnr hcont hp] at hpid2
  cases hpid2
  obtain ⟨u2, hu2, h⟩ := exceptBind_ok h
  obtain ⟨k2, hk2, _⟩ := exceptBind_ok h
  exact ⟨k2, get_keyF_mono hk2⟩

theorem getKN_ok_of_parts {t : Tree} {pid : String} {k2 : PKey} {pn : Node}
    (hcontp : t.contains pid = true)
    (hk : t.get_key pid = Except.ok k2)
    (hpn : t.getNode pid = some pn) :
    t.getKN pid = Except.ok (k2, pn) := by
  unfold Tree.getKN
  simp [ensure_present_ok hcontp, hk, hpn]

/-- Rebase-dropping a non-root node whose keyed-ness differs from its
parent's, evaluated: once the preliminary subtree extraction succeeds, the
check `parent.keyed != node.keyed` raises InvalidOperation before any
mutation. -/
theorem drop_rebase_mismatch_eval {t : Tree} {nid pid : String} {n pn : Node}
    {k : PKey} {st : Tree}
    (hcont : t.contains nid = true) (hnr : some nid ≠ t.root)
    (hn : t.getNode nid = some n) (hp : t.parentOf nid = some pid)
    (hpn : t.getNode pid = some pn) (hmm : pn.keyed ≠ n.keyed)
    (hsub : t.subtree nid = Except.ok (k, st)) :
    Tree.drop_nodeM nid false t = (Except.error Err.valueErr, t) := by
  obtain ⟨l, hl⟩ := subtree_ok_expand hsub
  obtain ⟨kn, q, hkn, hq⟩ := expandAll_ok_inv hcont hl
  obtain ⟨cids, hcids⟩ := childrenKN_ok_inv hq
  obtain ⟨hgk, hgn⟩ := getKN_ok_inv hkn
  have hkn2 : kn.2 = n := by
    rw [hgn] at hn
    exact Option.some.inj hn
  obtain ⟨k2, hk2⟩ := get_key_parent_ok hnr hcont hp hgk
  have hcontp : t.contains pid = true := by
    unfold Tree.contains
    rw [hpn]
    rfl
  have hknp := getKN_ok_of_parts hcontp hk2 hpn
  have hens := ensure_present_ok hcont false false
  have hpidok := parent_id_ok hnr hcont hp
  have hmmb : (pn.keyed != n.keyed) = true := by
    simp only [bne_iff_ne, ne_eq]
    exact hmm
  show Tree.drop_nodeF (t.size + 1) nid false t = _
  unfold Tree.drop_nodeF
  simp [M.bind_def, hens, hcids, hsub, hpidok, hknp, hkn, hkn2, hmmb, hnr]
  rw [if_neg hmm]
  rfl

/-- C5: for a non-root node whose keyed-ness differs from its parent's,
drop_node(id, with_children=False) fails and leaves the tree unchanged; the
error is InvalidOperation (ValueError) whenever the preliminary subtree
extraction succeeds.  (On trees where the faulty duplicate-key guard fires
inside that extraction, its KeyError propagates instead - see the
counterexample - still leaving the tree unchanged.) -/
theorem C5_drop_rebase_mismatch_fails (t : Tree) (nid pid : String)
    (n pn : Node) (hcont : t.contains nid = true)
    (hnr : some nid ≠ t.root) (hn : t.getNode nid = some n)
    (hp : t.parentOf nid = some pid) (hpn : t.getNode pid = some pn)
    (hmm : pn.keyed ≠ n.keyed) :
    (∃ e, Tree.drop_nodeM nid false t = (Except.error e, t)) ∧
    (∀ k st, t.subtree nid = Except.ok (k, st) →
      Tree.drop_nodeM nid false t = (Except.error Err.valueErr, t)) := by
  have hens := ensure_present_ok hcont false false
  constructor
  · cases hcid : t.children_ids nid with
    | error e =>
      refine ⟨e, ?_⟩
      show Tree.drop_nodeF (t.size + 1) nid false t = _
      unfold Tree.drop_nodeF
      simp [M.bind_def, hens, hcid]
    | ok cids =>
      cases hs : t.subtree nid with
      | error e =>
        refine ⟨e, ?_⟩
        show Tree.drop_nodeF (t.size + 1) nid false t = _
        unfold Tree.drop_nodeF
        simp [M.bind_def, hens, hcid, hs]
      | ok p =>
        exact ⟨_, drop_rebase_mismatch_eval hcont hnr hn hp hpn hmm
          (show t.subtree nid = Except.ok (p.1, p.2) by rw [hs])⟩
  · intro k st hsub
    exact drop_rebase_mismatch_eval hcont hnr hn hp hpn hmm hsub

/-- Witness for C5: dropping the unkeyed child of the keyed root without
children raises InvalidOperation and leaves the tree unchanged. -/
theorem C5_drop_rebase_mismatch_witness :
    Tree.drop_nodeM "L" false mismatchSimpleTree =
      (Except.error Err.valueErr, mismatchSimpleTree) := by
  exact (C5_drop_rebase_mismatch_fails mismatchSimpleTree "L" "r"
    (mkN "L" false true none) (mkN "r" true true none) (by decide)
    (by decide) (by decide) (by decide) (by decide) (by decide)).2 _ _ rfl

/-- C5 (counterexample to the claimed error kind): on the reachable tree
where the unkeyed node L (under the keyed root) has a keyed descendant
carrying a key/identifier clash, the rebase drop of L fails with KeyError
(raised by the faulty duplicate-key guard inside the preliminary subtree
extraction) instead of InvalidOperation; the tree is still unchanged. -/
theorem C5_error_kind_counterexample :
    mismatchClashTree.1 = Except.ok () ∧
    SpecInvariants mismatchClashTree.2 ∧
    (mismatchClashTree.2.getNode "L").map Node.keyed = some false ∧
    mismatchClashTree.2.parentOf "L" = some "r" ∧
    (mismatchClashTree.2.getNode "r").map Node.keyed = some true ∧
    Tree.drop_nodeM "L" false mismatchClashTree.2 =
      (Except.error Err.keyErr, mismatchClashTree.2) := by decide

/-! ### Association-list and sorting lemmas -/

theorem alget_nil {α : Type} (k : String) : alget ([] : AList α) k = none := rfl

theorem alget_cons {α : Type} (p : String × α) (rest : AList α) (k : String) :
    alget (p :: rest) k = if p.1 = k then some p.2 else alget rest k := by
  unfold alget
  simp only [List.find?]
  cases h : p.1 == k
  · rw [if_neg (by simpa using h)]
  · rw [if_pos (by simpa using h)]

theorem alget_isSome_of_mem_keys {α : Type} {l : AList α} {k : String}
    (h : k ∈ alkeys l) : (alget l k).isSome = true := by
  induction l with
  | nil => simp [alkeys] at h
  | cons p rest ih =>
    simp only [alkeys, List.map_cons, List.mem_cons] at h
    rw [alget_cons]
    by_cases hk : p.1 = k
    · simp [hk]
    · rw [if_neg hk]
      cases h with
      | inl hh => exact absurd hh.symm hk
      | inr hh => exact ih hh

theorem mem_keys_of_alget {α : Type} {l : AList α} {k : String} {v : α}
    (h : alget l k = some v) : k ∈ alkeys l := by
  induction l with
  | nil => rw [alget_nil] at h; cases h
  | cons p rest ih =>
    rw [alget_cons] at h
    simp only [alkeys, List.map_cons, List.mem_cons]
    by_cases hk : p.1 = k
    · exact Or.inl hk.symm
    · rw [if_neg hk] at h
      exact Or.inr (ih h)

theorem insertSorted_perm {α : Type} (lt : PKey → PKey → Bool)
    (p : PKey × α) (l : List (PKey × α)) :
    (insertSorted lt p l).Perm (p :: l) := by
  induction l with
  | nil => simp [insertSorted]
  | cons q rest ih =>
    unfold insertSorted
    by_cases h : lt q.1 p.1
    · rw [if_pos h]
      exact (List.Perm.cons q ih).trans (List.Perm.swap p q rest)
    · rw [if_neg h]

theorem sortPairs_perm {α : Type} (rev : Bool) (l : List (PKey × α)) :
    (sortPairs rev l).Perm l := by
  induction l with
  | nil => simp [sortPairs]
  | cons q rest ih =>
    unfold sortPairs
    exact (insertSorted_perm _ q _).trans (List.Perm.cons q ih)

theorem sortPairs_mem {α : Type} {rev : Bool} {l : List (PKey × α)}
    {x : PKey × α} : x ∈ sortPairs rev l ↔ x ∈ l :=
  (sortPairs_perm rev l).mem_iff

theorem contains_iff_mem_ids {t : Tree} {id : String} :
    t.contains id = true ↔ id ∈ t.ids := by
  constructor
  · intro h
    obtain ⟨n, hn⟩ := contains_getNode h
    exact mem_keys_of_alget hn
  · intro h
    unfold Tree.contains Tree.getNode
    rw [alget_isSome_of_mem_keys h]

theorem Tree.WF.ids_nodup {t : Tree} (h : t.WF) : t.ids.Nodup := h.1

theorem Tree.WF.idCons {t : Tree} (h : t.WF) {id : String} {n : Node}
    (hn : t.getNode id = some n) : n.identifier = id := by
  have hall := h.2.1
  unfold Tree.idConsB at hall
  unfold Tree.getNode alget at hn
  cases hf : t.nodes_map.find? (fun p => p.1 == id) with
  | none => rw [hf] at hn; cases hn
  | some pr =>
    rw [hf] at hn
    cases hn
    have hmem := List.mem_of_find?_eq_some hf
    have hpred := List.find?_some hf
    have := List.all_eq_true.mp hall pr hmem
    have h1 : pr.2.identifier = pr.1 := by simpa using this
    have h2 : pr.1 = id := by simpa using hpred
    rw [h1, h2]

theorem Tree.WF.root_none_empty {t : Tree} (h : t.WF) (hr : t.root = none) :
    t.nodes_map = [] := by
  have hro := h.2.2.1
  unfold Tree.rootOkB at hro
  rw [hr] at hro
  simpa using hro

theorem Tree.WF.root_mem {t : Tree} (h : t.WF) {r : String}
    (hr : t.root = some r) : r ∈ t.ids ∧ t.parentOf r = none := by
  have hro := h.2.2.1
  unfold Tree.rootOkB at hro
  rw [hr] at hro
  simp only [Bool.and_eq_true, Option.isNone_iff_eq_none] at hro
  exact ⟨contains_iff_mem_ids.mp hro.1, hro.2⟩

theorem Tree.WF.parent_total {t : Tree} (h : t.WF) {id : String}
    (hid : id ∈ t.ids) (hnr : some id ≠ t.root) :
    ∃ p, t.parentOf id = some p := by
  have hpt := h.2.2.2.1
  unfold Tree.parentTotalB at hpt
  have := List.all_eq_true.mp hpt id hid
  simp only [Bool.or_eq_true, beq_iff_eq] at this
  cases this with
  | inl hh => exact absurd hh hnr
  | inr hh => exact Option.isSome_iff_exists.mp hh

theorem Tree.WF.parent_link {t : Tree} (h : t.WF) {id p : String}
    (hid : id ∈ t.ids) (hp : t.parentOf id = some p) :
    p ∈ t.ids ∧ id ∈ t.kids p := by
  have hpl := h.2.2.2.2.1
  unfold Tree.parentLinkB at hpl
  have := List.all_eq_true.mp hpl id hid
  rw [hp] at this
  simp only [Bool.and_eq_true, List.contains_eq_any_beq, List.any_eq_true,
    beq_iff_eq] at this
  obtain ⟨h1, x, hx, hx2⟩ := this
  exact ⟨contains_iff_mem_ids.mp h1, hx2 ▸ hx⟩

theorem Tree.WF.kid_link {t : Tree} (h : t.WF) {p c : String}
    (hp : p ∈ t.ids) (hc : c ∈ t.kids p) :
    c ∈ t.ids ∧ t.parentOf c = some p := by
  have hkl := h.2.2.2.2.2.1
  unfold Tree.kidLinkB at hkl
  have h1 := List.all_eq_true.mp hkl p hp
  have h2 := List.all_eq_true.mp h1 c hc
  simp only [Bool.and_eq_true, beq_iff_eq] at h2
  exact ⟨contains_iff_mem_ids.mp h2.1, h2.2⟩

theorem Tree.WF.kids_nodup {t : Tree} (h : t.WF) {p : String} (hp : p ∈ t.ids) :
    (t.kids p).Nodup := by
  have hkn := h.2.2.2.2.2.2.1
  unfold Tree.kidsNodupB at hkn
  have := List.all_eq_true.mp hkn p hp
  simpa using this

theorem Tree.WF.chain_ok {t : Tree} (h : t.WF) {id : String} (hid : id ∈ t.ids) :
    ∃ l, chainF t (t.size + 1) id = some l := by
  have hco := h.2.2.2.2.2.2.2
  unfold Tree.chainOkB at hco
  have := List.all_eq_true.mp hco id hid
  exact Option.isSome_iff_exists.mp this

theorem chainF_le_mono {t : Tree} :
    ∀ {f g : Nat} {id : String} {l : List String}, f ≤ g →
      chainF t f id = some l → chainF t g id = some l := by
  intro f
  induction f with
  | zero =>
    intro g id l _ h
    exact absurd h (by simp [chainF])
  | succ f ih =>
    intro g id l hle h
    obtain ⟨g2, rfl⟩ : ∃ g2, g = g2 + 1 := by
      cases g with
      | zero => omega
      | succ g2 => exact ⟨g2, rfl⟩
    unfold chainF at h ⊢
    by_cases hr : some id = t.root
    · rw [if_pos hr] at h ⊢
      exact h
    · rw [if_neg hr] at h ⊢
      cases hp : t.parentOf id with
      | none => rw [hp] at h; cases h
      | some p =>
        rw [hp] at h
        dsimp only at h ⊢
        cases hc : chainF t f p with
        | none => rw [hc] at h; cases h
        | some l2 =>
          rw [hc] at h
          rw [ih (by omega) hc]
          exact h

theorem chainD_of_root {t : Tree} {r : String} (hr : t.root = some r) :
    t.chainD r = [r] := by
  unfold Tree.chainD chainF
  rw [if_pos hr.symm]
  rfl

theorem chainD_cons {t : Tree} (h : t.WF) {id p : String}
    (hid : id ∈ t.ids) (hnr : some id ≠ t.root)
    (hp : t.parentOf id = some p) :
    t.chainD id = id :: t.chainD p := by
  obtain ⟨l, hl⟩ := h.chain_ok hid
  unfold Tree.chainD
  rw [hl]
  unfold chainF at hl
  rw [if_neg hnr, hp] at hl
  dsimp only at hl
  cases hc : chainF t t.size p with
  | none => rw [hc] at hl; cases hl
  | some l2 =>
    rw [hc] at hl
    cases hl
    rw [chainF_le_mono (by omega) hc]
    rfl

theorem chainD_self_mem {t : Tree} (h : t.WF) {id : String}
    (hid : id ∈ t.ids) : ∃ rest, t.chainD id = id :: rest := by
  by_cases hr : some id = t.root
  · exact ⟨[], chainD_of_root hr.symm⟩
  · obtain ⟨p, hp⟩ := h.parent_total hid hr
    exact ⟨t.chainD p, chainD_cons h hid hr hp⟩

/-- Chain members are tree nodes, and each chain is a suffix-closed family:
the chain of any member is a suffix of the chain. -/
theorem chainD_mem_closed {t : Tree} (h : t.WF) :
    ∀ (n : Nat) (id : String), (t.chainD id).length ≤ n → id ∈ t.ids →
      ∀ y ∈ t.chainD id, y ∈ t.ids ∧
        List.IsSuffix (t.chainD y) (t.chainD id) := by
  intro n
  induction n with
  | zero =>
    intro id hlen hid y hy
    obtain ⟨rest, hr⟩ := chainD_self_mem h hid
    rw [hr] at hlen
    simp at hlen
  | succ n ih =>
    intro id hlen hid y hy
    by_cases hr : some id = t.root
    · rw [chainD_of_root hr.symm] at hy
      simp only [List.mem_singleton] at hy
      subst hy
      exact ⟨hid, List.suffix_refl _⟩
    · obtain ⟨p, hp⟩ := h.parent_total hid hr
      have hcons := chainD_cons h hid hr hp
      rw [hcons] at hy hlen
      simp only [List.length_cons] at hlen
      have hpids := (h.parent_link hid hp).1
      cases List.mem_cons.mp hy with
      | inl hh =>
        subst hh
        exact ⟨hid, by rw [hcons]⟩
      | inr hh =>
        obtain ⟨hy1, hy2⟩ := ih p (by omega) hpids y hh
        refine ⟨hy1, ?_⟩
        rw [hcons]
        exact hy2.trans (List.suffix_cons id (t.chainD p))

theorem chainD_mem_ids {t : Tree} (h : t.WF) {id y : String}
    (hid : id ∈ t.ids) (hy : y ∈ t.chainD id) : y ∈ t.ids :=
  (chainD_mem_closed h (t.chainD id).length id (le_refl _) hid y hy).1

theorem chainD_suffix {t : Tree} (h : t.WF) {id y : String}
    (hid : id ∈ t.ids) (hy : y ∈ t.chainD id) :
    List.IsSuffix (t.chainD y) (t.chainD id) :=
  (chainD_mem_closed h (t.chainD id).length id (le_refl _) hid y hy).2

theorem chainD_mem_of_suffix {t : Tree} (h : t.WF) {y : String}
    {l : List String} (hy : y ∈ t.ids)
    (hs : List.IsSuffix (t.chainD y) l) : y ∈ l := by
  obtain ⟨rest, hr⟩ := chainD_self_mem h hy
  exact hs.mem (by rw [hr]; exact List.mem_cons_self y rest)

/-- Chain linearity: two members of one chain are comparable. -/
theorem chainD_linear {t : Tree} (h : t.WF) {d x y : String}
    (hd : d ∈ t.ids) (hx : x ∈ t.chainD d) (hy : y ∈ t.chainD d) :
    x ∈ t.chainD y ∨ y ∈ t.chainD x := by
  have hxs := chainD_suffix h hd hx
  have hys := chainD_suffix h hd hy
  have hxi := chainD_mem_ids h hd hx
  have hyi := chainD_mem_ids h hd hy
  cases List.suffix_or_suffix_of_suffix hxs hys with
  | inl hh => exact Or.inl (chainD_mem_of_suffix h hxi hh)
  | inr hh => exact Or.inr (chainD_mem_of_suffix h hyi hh)

/-- Strict descent: a proper chain member has a strictly shorter chain. -/
theorem chainD_length_lt {t : Tree} (h : t.WF) {id y : String}
    (hid : id ∈ t.ids) (hy : y ∈ t.chainD id) (hne : y ≠ id) :
    (t.chainD y).length < (t.chainD id).length := by
  have hs := chainD_suffix h hid hy
  have hyi := chainD_mem_ids h hid hy
  rcases Nat.lt_or_ge (t.chainD y).length (t.chainD id).length with hlt | hge
  · exact hlt
  · exfalso
    have hle := hs.length_le
    have heq : (t.chainD y).length = (t.chainD id).length := by omega
    have := hs.eq_of_length heq
    obtain ⟨ry, hry⟩ := chainD_self_mem h hyi
    obtain ⟨ri, hri⟩ := chainD_self_mem h hid
    rw [hry, hri] at this
    exact hne (List.head_eq_of_cons_eq this)

/-- A member of a chain other than the head has a chain member child whose
parent is it. -/
theorem chainD_pred {t : Tree} (h : t.WF) :
    ∀ (n : Nat) (d x : String), (t.chainD d).length ≤ n → d ∈ t.ids →
      x ∈ t.chainD d → x ≠ d →
      ∃ c, c ∈ t.chainD d ∧ t.parentOf c = some x := by
  intro n
  induction n with
  | zero =>
    intro d x hlen hd hx _
    obtain ⟨rest, hr⟩ := chainD_self_mem h hd
    rw [hr] at hlen
    simp at hlen
  | succ n ih =>
    intro d x hlen hd hx hne
    by_cases hr : some d = t.root
    · rw [chainD_of_root hr.symm] at hx
      simp only [List.mem_singleton] at hx
      exact absurd hx hne
    · obtain ⟨p, hp⟩ := h.parent_total hd hr
      have hcons := chainD_cons h hd hr hp
      rw [hcons] at hx hlen
      simp only [List.length_cons] at hlen
      have hpids := (h.parent_link hd hp).1
      cases List.mem_cons.mp hx with
      | inl hh => exact absurd hh hne
      | inr hh =>
        by_cases hxp : x = p
        · subst hxp
          exact ⟨d, by rw [hcons]; exact List.mem_cons_self _ _, hp⟩
        · obtain ⟨c, hc1, hc2⟩ := ih p x (by omega) hpids hh hxp
          exact ⟨c, by rw [hcons]; exact List.mem_cons_of_mem _ hc1, hc2⟩

/-- The root lies on every chain. -/
theorem chainD_root_mem {t : Tree} (h : t.WF) {r : String}
    (hr : t.root = some r) :
    ∀ (n : Nat) (id : String), (t.chainD id).length ≤ n → id ∈ t.ids →
      r ∈ t.chainD id := by
  intro n
  induction n with
  | zero =>
    intro id hlen hid
    obtain ⟨rest, hrr⟩ := chainD_self_mem h hid
    rw [hrr] at hlen
    simp at hlen
  | succ n ih =>
    intro id hlen hid
    by_cases hro : some id = t.root
    · have : id = r := by rw [hr] at hro; exact Option.some.inj hro
      subst this
      rw [chainD_of_root hr]
      exact List.mem_singleton_self id
    · obtain ⟨p, hp⟩ := h.parent_total hid hro
      have hcons := chainD_cons h hid hro hp
      rw [hcons]
      have hpids := (h.parent_link hid hp).1
      rw [hcons] at hlen
      simp only [List.length_cons] at hlen
      exact List.mem_cons_of_mem _ (ih p (by omega) hpids)

/-- The chain of a child extends the chain of its parent. -/
theorem chainD_kid {t : Tree} (h : t.WF) {p c : String}
    (hp : p ∈ t.ids) (hc : c ∈ t.kids p) :
    t.chainD c = c :: t.chainD p := by
  obtain ⟨hci, hcp⟩ := h.kid_link hp hc
  have hnr : some c ≠ t.root := by
    intro hh
    have := (h.root_mem hh.symm).2
    rw [this] at hcp
    cases hcp
  exact chainD_cons h hci hnr hcp

theorem chainD_nodup {t : Tree} (h : t.WF) :
    ∀ (n : Nat) (id : String), (t.chainD id).length ≤ n → id ∈ t.ids →
      (t.chainD id).Nodup := by
  intro n
  induction n with
  | zero =>
    intro id hlen hid
    obtain ⟨rest, hr⟩ := chainD_self_mem h hid
    rw [hr] at hlen
    simp at hlen
  | succ n ih =>
    intro id hlen hid
    by_cases hr : some id = t.root
    · rw [chainD_of_root hr.symm]
      simp
    · obtain ⟨p, hp⟩ := h.parent_total hid hr
      have hcons := chainD_cons h hid hr hp
      have hpids := (h.parent_link hid hp).1
      rw [hcons] at hlen ⊢
      simp only [List.length_cons] at hlen
      refine List.Nodup.cons ?_ (ih p (by omega) hpids)
      intro hmem
      have hs := chainD_suffix h hpids hmem
      have := hs.length_le
      rw [hcons] at this
      simp at this

theorem chainD_length_le_size {t : Tree} (h : t.WF) {id : String}
    (hid : id ∈ t.ids) : (t.chainD id).length ≤ t.size := by
  have hnd := chainD_nodup h (t.chainD id).length id (le_refl _) hid
  have hsub : t.chainD id ⊆ t.ids := fun y hy => chainD_mem_ids h hid hy
  have := (List.subperm_of_subset hnd hsub).length_le
  simpa [Tree.size, Tree.ids, alkeys] using this

/-! ### Totality of the read queries on well-formed trees -/

theorem findIdx_isSome_of_mem {l : List String} {x : String} (h : x ∈ l) :
    ∃ i, l.findIdx? (fun c => c == x) = some i := by
  cases hf : l.findIdx? (fun c => c == x) with
  | some i => exact ⟨i, rfl⟩
  | none =>
    have hall := List.findIdx?_eq_none_iff.mp hf
    have hx := hall x h
    simp at hx

theorem get_keyF_total {t : Tree} (h : t.WF) :
    ∀ (f : Nat) (id : String), id ∈ t.ids → (t.chainD id).length ≤ f →
      ∃ k, t.get_keyF f id = Except.ok k := by
  intro f
  induction f with
  | zero =>
    intro id hid hlen
    obtain ⟨rest, hr⟩ := chainD_self_mem h hid
    rw [hr] at hlen
    simp at hlen
  | succ f ih =>
    intro id hid hlen
    have hcont : t.contains id = true := contains_iff_mem_ids.mpr hid
    unfold Tree.get_keyF
    simp only [ensure_present_ok hcont, ebind_ok]
    by_cases hr : some id = t.root
    · rw [if_pos hr]
      exact ⟨PKey.null, rfl⟩
    · rw [if_neg hr]
      obtain ⟨p, hp⟩ := h.parent_total hid hr
      obtain ⟨hpids, hkid⟩ := h.parent_link hid hp
      have hcons := chainD_cons h hid hr hp
      rw [hcons] at hlen
      simp only [List.length_cons] at hlen
      obtain ⟨k2, hk2⟩ := ih p hpids (by omega)
      have hcontp : t.contains p = true := contains_iff_mem_ids.mpr hpids
      obtain ⟨pn, hpn⟩ := contains_getNode hcontp
      simp only [parent_id_ok hr hcont hp, ebind_ok,
        ensure_present_ok hcontp, hk2, hpn]
      unfold Tree.kids at hkid
      rw [hpn] at hkid
      dsimp only at hkid
      by_cases hkeyed : pn.keyed
      · rw [if_pos hkeyed] at hkid
        rw [if_pos hkeyed]
        have hsome := alget_isSome_of_mem_keys hkid
        cases hal : alget (t.childMap p) id with
        | none => rw [hal] at hsome; cases hsome
        | some s => exact ⟨PKey.str s, rfl⟩
      · rw [if_neg hkeyed] at hkid
        rw [if_neg hkeyed]
        obtain ⟨i, hi⟩ := findIdx_isSome_of_mem hkid
        exact ⟨PKey.idx (Int.ofNat i), by rw [hi]⟩

theorem get_key_total {t : Tree} (h : t.WF) {id : String}
    (hid : id ∈ t.ids) : ∃ k, t.get_key id = Except.ok k := by
  unfold Tree.get_key
  exact get_keyF_total h (t.size + 1) id hid
    (le_trans (chainD_length_le_size h hid) (by omega))

theorem getKN_total {t : Tree} (h : t.WF) {id : String}
    (hid : id ∈ t.ids) :
    ∃ k n, t.getKN id = Except.ok (k, n) ∧ t.getNode id = some n ∧
      n.identifier = id := by
  have hcont : t.contains id = true := contains_iff_mem_ids.mpr hid
  obtain ⟨n, hn⟩ := contains_getNode hcont
  obtain ⟨k, hk⟩ := get_key_total h hid
  refine ⟨k, n, ?_, hn, h.idCons hn⟩
  unfold Tree.getKN
  simp [ensure_present_ok hcont, hk, hn]

theorem children_ids_total {t : Tree} (h : t.WF) {id : String}
    (hid : id ∈ t.ids) : t.children_ids id = Except.ok (t.kids id) := by
  obtain ⟨k, n, hkn, hn, _⟩ := getKN_total h hid
  unfold Tree.children_ids
  simp only [hkn, ebind_ok]
  unfold Tree.kids
  rw [hn]
  by_cases hk : n.keyed <;> simp [hk]

theorem mapM_getKN_total {t : Tree} (h : t.WF) :
    ∀ {cids : List String}, (∀ c ∈ cids, c ∈ t.ids) →
      ∃ q, cids.mapM (fun cid => t.getKN cid) = Except.ok q ∧
        q.map (fun p => p.2.identifier) = cids ∧
        (∀ p ∈ q, ∃ cid, t.getKN cid = Except.ok p) := by
  intro cids
  induction cids with
  | nil => intro _; exact ⟨[], rfl, rfl, by simp⟩
  | cons c rest ih =>
    intro hall
    obtain ⟨k, n, hkn, _, hni⟩ := getKN_total h (hall c (by simp))
    obtain ⟨q, hq, hqid, hqmem⟩ := ih (fun x hx => hall x (by simp [hx]))
    refine ⟨(k, n) :: q, ?_, ?_, ?_⟩
    · rw [List.mapM_cons]
      simp only [hkn, hq, ebind_ok, epure_eq]
    · simp [hqid, hni]
    · intro p hp
      cases List.mem_cons.mp hp with
      | inl hh => exact ⟨c, hh ▸ hkn⟩
      | inr hh => exact hqmem p hh

theorem childrenKN_total {t : Tree} (h : t.WF) {id : String}
    (hid : id ∈ t.ids) :
    ∃ q, t.childrenKN id = Except.ok q ∧
      q.map (fun p => p.2.identifier) = t.kids id ∧
      (∀ p ∈ q, ∃ cid, t.getKN cid = Except.ok p) := by
  have hkids : ∀ c ∈ t.kids id, c ∈ t.ids :=
    fun c hc => (h.kid_link hid hc).1
  obtain ⟨q, hq, hqid, hqmem⟩ := mapM_getKN_total h hkids
  refine ⟨q, ?_, hqid, hqmem⟩
  unfold Tree.childrenKN
  rw [children_ids_total h hid]
  simp only [ebind_ok]
  exact hq

theorem inSubL_perm {t : Tree} {l l2 : List String} (hp : l.Perm l2)
    {d : String} : inSubL t l d ↔ inSubL t l2 d := by
  unfold inSubL
  constructor
  · rintro ⟨a, ha, hc⟩
    exact ⟨a, hp.mem_iff.mp ha, hc⟩
  · rintro ⟨a, ha, hc⟩
    exact ⟨a, hp.mem_iff.mpr ha, hc⟩

theorem qMeasure_perm {t : Tree} {l l2 : List String} (hp : l.Perm l2) :
    qMeasure t l = qMeasure t l2 := by
  unfold qMeasure
  apply List.countP_congr
  intro d _
  simpa using inSubL_perm hp

theorem countP_pop {l : List String} (hnd : l.Nodup) {P Q : String → Prop}
    [DecidablePred P] [DecidablePred Q] {a : String} (ha : a ∈ l)
    (hPa : P a) (hQP : ∀ d ∈ l, Q d ↔ P d ∧ d ≠ a) :
    l.countP (fun d => decide (Q d)) + 1 =
      l.countP (fun d => decide (P d)) := by
  induction l with
  | nil => cases ha
  | cons x rest ih =>
    simp only [List.countP_cons]
    cases List.mem_cons.mp ha with
    | inl heq =>
      have hQa : decide (Q x) = false := by
        simp only [decide_eq_false_iff_not]
        intro hq
        exact ((hQP x (by simp)).mp hq).2 heq.symm
      have hrest : rest.countP (fun d => decide (Q d)) =
          rest.countP (fun d => decide (P d)) := by
        apply List.countP_congr
        intro d hd
        have hda : d ≠ a := by
          rintro rfl
          rw [heq] at hd
          exact (List.nodup_cons.mp hnd).1 hd
        rw [decide_eq_true_eq, decide_eq_true_eq, hQP d (by simp [hd])]
        constructor
        · exact fun hh => hh.1
        · exact fun hh => ⟨hh, hda⟩
      rw [hQa, hrest, decide_eq_true (heq ▸ hPa)]
      simp
    | inr hmem =>
      have hx : x ≠ a := by
        rintro rfl
        exact (List.nodup_cons.mp hnd).1 hmem
      have hQx : decide (Q x) = decide (P x) := by
        apply decide_eq_decide.mpr
        rw [hQP x (by simp)]
        constructor
        · exact fun hh => hh.1
        · exact fun hh => ⟨hh, hx⟩
      have hih := ih (List.nodup_cons.mp hnd).2 hmem
        (fun d hd => hQP d (by simp [hd]))
      rw [hQx]
      cases hdp : decide (P x) <;> simp <;> omega

/-- Two distinct children of one node head disjoint subtrees. -/
theorem kids_incomparable {t : Tree} (h : t.WF) {p c1 c2 : String}
    (hp : p ∈ t.ids) (h1 : c1 ∈ t.kids p) (h2 : c2 ∈ t.kids p)
    (hne : c1 ≠ c2) : c1 ∉ t.chainD c2 ∧ c2 ∉ t.chainD c1 := by
  have e1 := chainD_kid h hp h1
  have e2 := chainD_kid h hp h2
  have i1 := (h.kid_link hp h1).1
  have i2 := (h.kid_link hp h2).1
  constructor
  · intro hmem
    have hs := chainD_suffix h i2 hmem
    have heq := hs.eq_of_length (by rw [e1, e2]; simp)
    rw [e1, e2] at heq
    exact hne (List.head_eq_of_cons_eq heq)
  · intro hmem
    have hs := chainD_suffix h i1 hmem
    have heq := hs.eq_of_length (by rw [e1, e2]; simp)
    rw [e1, e2] at heq
    exact hne (List.head_eq_of_cons_eq heq).symm

/-- A child of p is incomparable with anything incomparable with p. -/
theorem kid_outside_incomparable {t : Tree} (h : t.WF) {p c b : String}
    (hp : p ∈ t.ids) (hc : c ∈ t.kids p) (hb : b ∈ t.ids)
    (hR : p ∉ t.chainD b ∧ b ∉ t.chainD p) :
    c ∉ t.chainD b ∧ b ∉ t.chainD c := by
  have ec := chainD_kid h hp hc
  have ic := (h.kid_link hp hc).1
  have hpc : p ∈ t.chainD c := by
    rw [ec]
    obtain ⟨rest, hr⟩ := chainD_self_mem h hp
    rw [hr]
    simp
  constructor
  · intro hmem
    have hs := chainD_suffix h hb hmem
    exact hR.1 (hs.mem hpc)
  · intro hmem
    rw [ec] at hmem
    cases List.mem_cons.mp hmem with
    | inl hh =>
      subst hh
      exact hR.1 hpc
    | inr hh => exact hR.2 hh

/-- Popping a work-list head: a tree node lies below the head's children or
the rest exactly when it lies below the original list and is not the head
itself. -/
theorem inSub_pop {t : Tree} (h : t.WF) {id : String} {restIds : List String}
    (hid : id ∈ t.ids)
    (hR : ∀ b ∈ restIds, id ∉ t.chainD b ∧ b ∉ t.chainD id)
    {d : String} (hd : d ∈ t.ids) :
    inSubL t (t.kids id ++ restIds) d ↔
      inSubL t (id :: restIds) d ∧ d ≠ id := by
  constructor
  · rintro ⟨a, ha, hc⟩
    cases List.mem_append.mp ha with
    | inl hk =>
      have ea := chainD_kid h hid hk
      have ia := (h.kid_link hid hk).1
      have hsuf := chainD_suffix h hd hc
      have hidc : id ∈ t.chainD a := by
        rw [ea]
        obtain ⟨rest, hr⟩ := chainD_self_mem h hid
        rw [hr]
        simp
      refine ⟨⟨id, by simp, hsuf.mem hidc⟩, ?_⟩
      rintro rfl
      have := hsuf.length_le
      rw [ea] at this
      obtain ⟨r2, hr2⟩ := chainD_self_mem h hid
      simp at this
    | inr hr =>
      refine ⟨⟨a, by simp [hr], hc⟩, ?_⟩
      rintro rfl
      exact (hR a hr).2 hc
  · rintro ⟨⟨a, ha, hc⟩, hne⟩
    cases List.mem_cons.mp ha with
    | inl hh =>
      subst hh
      obtain ⟨c, hcd, hcp⟩ := chainD_pred h (t.chainD d).length d a
        (le_refl _) hd hc (fun hh2 => hne hh2.symm)
      have hcids := chainD_mem_ids h hd hcd
      have hckid : c ∈ t.kids a := (h.parent_link hcids hcp).2
      exact ⟨c, List.mem_append.mpr (Or.inl hckid), hcd⟩
    | inr hh => exact ⟨a, List.mem_append.mpr (Or.inr hh), hc⟩

theorem self_mem_chainD {t : Tree} (h : t.WF) {id : String}
    (hid : id ∈ t.ids) : id ∈ t.chainD id := by
  obtain ⟨rest, hr⟩ := chainD_self_mem h hid
  rw [hr]
  simp

theorem filter_enqueues_none (l : List (PKey × Node)) :
    l.filter (fun q => enqueues none false q.1 q.2) = l := by
  induction l with
  | nil => rfl
  | cons x rest ih => simp [List.filter_cons, enqueues, ih]

theorem QInv_perm {t : Tree} {l l2 : List String} (hp : l.Perm l2)
    (h : QInv t l) : QInv t l2 := by
  obtain ⟨h1, h2, h3⟩ := h
  refine ⟨fun a ha => h1 a (hp.mem_iff.mpr ha), hp.nodup_iff.mp h2, ?_⟩
  exact (hp.pairwise_iff (fun hab => ⟨hab.2, hab.1⟩)).mp h3

/-- The work-horse of the traversal claims: on a well-formed tree the
unfiltered loop terminates within the measure, yields pairwise distinct
identifiers, and visits exactly the nodes below the work list. -/
theorem expandLoop_run {t : Tree} (h : t.WF) (m : String) (rev : Bool) :
    ∀ (fuel : Nat) (queue : List (PKey × Node)),
      QInv t (queue.map idOf) →
      qMeasure t (queue.map idOf) ≤ fuel →
      ∃ out, t.expandLoop m none false rev fuel queue = Except.ok out ∧
        (out.map idOf).Nodup ∧
        (∀ x ∈ out, idOf x ∈ t.ids ∧ inSubL t (queue.map idOf) (idOf x)) ∧
        (∀ d ∈ t.ids, inSubL t (queue.map idOf) d →
          ∃ x ∈ out, idOf x = d) := by
  intro fuel
  induction fuel with
  | zero =>
    intro queue hq hm
    cases queue with
    | nil =>
      refine ⟨[], rfl, by simp, by simp, ?_⟩
      intro d hd hin
      obtain ⟨a, ha, _⟩ := hin
      simp at ha
    | cons x rest =>
      exfalso
      have hidm : idOf x ∈ t.ids := hq.1 (idOf x) (by simp)
      have hx : inSubL t ((x :: rest).map idOf) (idOf x) :=
        ⟨idOf x, by simp, self_mem_chainD h hidm⟩
      have hpos : 0 < qMeasure t ((x :: rest).map idOf) := by
        apply List.countP_pos.mpr
        exact ⟨idOf x, hidm, by simpa using hx⟩
      omega
  | succ fuel ih =>
    intro queue hq hm
    cases queue with
    | nil =>
      refine ⟨[], rfl, by simp, by simp, ?_⟩
      intro d hd hin
      obtain ⟨a, ha, _⟩ := hin
      simp at ha
    | cons x rest =>
      obtain ⟨ck, cn⟩ := x
      have hidm : cn.identifier ∈ t.ids := hq.1 cn.identifier (by simp [idOf])
      obtain ⟨exp, hexp, hexpids, _⟩ := childrenKN_total h hidm
      have hpairall := List.pairwise_cons.mp (show List.Pairwise
          (fun a b => a ∉ t.chainD b ∧ b ∉ t.chainD a)
          (cn.identifier :: rest.map idOf) from hq.2.2)
      have hndall := List.nodup_cons.mp
        (show (cn.identifier :: rest.map idOf).Nodup from hq.2.1)
      have hRrest : ∀ b ∈ rest.map idOf,
          cn.identifier ∉ t.chainD b ∧ b ∉ t.chainD cn.identifier :=
        hpairall.1
      -- the new work list is a permutation of children ++ rest
      have hsortperm : ((sortPairs rev exp).map idOf).Perm
          (t.kids cn.identifier) := by
        rw [← hexpids]
        exact (sortPairs_perm rev exp).map idOf
      have hqnewperm : ∀ qnew, qnew = (if m = "depth"
            then sortPairs rev exp ++ rest else rest ++ sortPairs rev exp) →
          (qnew.map idOf).Perm (t.kids cn.identifier ++ rest.map idOf) := by
        intro qnew hqnew
        subst hqnew
        by_cases hmode : m = "depth"
        · rw [if_pos hmode, List.map_append]
          exact hsortperm.append_right _
        · rw [if_neg hmode, List.map_append]
          exact (List.perm_append_comm).trans (hsortperm.append_right _)
      have hkidsids : ∀ c ∈ t.kids cn.identifier, c ∈ t.ids :=
        fun c hc => (h.kid_link hidm hc).1
      have hkidchain : ∀ c ∈ t.kids cn.identifier,
          cn.identifier ∈ t.chainD c := by
        intro c hc
        rw [chainD_kid h hidm hc]
        exact List.mem_cons_of_mem _ (self_mem_chainD h hidm)
      -- invariant for children ++ rest
      have hqinv2 : QInv t (t.kids cn.identifier ++ rest.map idOf) := by
        refine ⟨?_, ?_, ?_⟩
        · intro a ha
          cases List.mem_append.mp ha with
          | inl hk => exact hkidsids a hk
          | inr hr => exact hq.1 a (by simp [hr])
        · rw [List.nodup_append]
          refine ⟨h.kids_nodup hidm, hndall.2, ?_⟩
          intro c hck hcr
          exact (hRrest c hcr).1 (hkidchain c hck)
        · rw [List.pairwise_append]
          refine ⟨?_, hpairall.2, ?_⟩
          · exact List.Pairwise.imp_of_mem
              (fun ha hb hne => kids_incomparable h hidm ha hb hne)
              (h.kids_nodup hidm)
          · intro c hck b hbr
            exact kid_outside_incomparable h hidm hck
              (hq.1 b (by simp [hbr])) (hRrest b hbr)
      -- measure decrement
      have hPid : inSubL t (cn.identifier :: rest.map idOf) cn.identifier :=
        ⟨cn.identifier, by simp, self_mem_chainD h hidm⟩
      have hpop : ∀ d ∈ t.ids,
          inSubL t (t.kids cn.identifier ++ rest.map idOf) d ↔
            inSubL t (cn.identifier :: rest.map idOf) d ∧
              d ≠ cn.identifier :=
        fun d hd => inSub_pop h hidm hRrest hd
      have hmeas : qMeasure t (t.kids cn.identifier ++ rest.map idOf) + 1 =
          qMeasure t (cn.identifier :: rest.map idOf) := by
        exact countP_pop h.1 hidm hPid hpop
      have hmold : qMeasure t (((ck, cn) :: rest).map idOf) =
          qMeasure t (cn.identifier :: rest.map idOf) := by
        simp [idOf]
      -- run the tail
      have hqnew := hqnewperm _ rfl
      have htail := ih (if m = "depth" then sortPairs rev exp ++ rest
          else rest ++ sortPairs rev exp)
        (QInv_perm hqnew.symm hqinv2)
        (by
          rw [qMeasure_perm hqnew]
          rw [hmold] at hm
          omega)
      obtain ⟨out2, hloop, hnd2, hrange2, hcomp2⟩ := htail
      -- evaluate one loop step
      refine ⟨(ck, cn) :: out2, ?_, ?_, ?_, ?_⟩
      · unfold Tree.expandLoop
        simp only [hexp, ebind_ok, filter_enqueues_none, hloop, passes]
        rfl
      · simp only [List.map_cons, List.nodup_cons]
        refine ⟨?_, hnd2⟩
        intro hmem
        obtain ⟨y, hy, hyid⟩ := List.mem_map.mp hmem
        have := (hrange2 y hy).2
        rw [hyid] at this
        have hiff := (hpop (idOf (ck, cn))
          (by simpa [idOf] using hidm)).mp
          ((inSubL_perm hqnew).mp this)
        exact hiff.2 rfl
      · intro y hy
        cases List.mem_cons.mp hy with
        | inl hh =>
          subst hh
          exact ⟨hidm, ⟨cn.identifier, by simp [idOf], self_mem_chainD h hidm⟩⟩
        | inr hh =>
          obtain ⟨hy1, hy2⟩ := hrange2 y hh
          refine ⟨hy1, ?_⟩
          have := ((hpop (idOf y) hy1).mp ((inSubL_perm hqnew).mp hy2)).1
          simpa [idOf] using this
      · intro d hd hin
        by_cases hdid : d = cn.identifier
        · exact ⟨(ck, cn), by simp, by simp [idOf, hdid]⟩
        · have hin2 : inSubL t (cn.identifier :: rest.map idOf) d := by
            simpa [idOf] using hin
          have := (hpop d hd).mpr ⟨hin2, hdid⟩
          obtain ⟨y, hy, hyid⟩ := hcomp2 d hd ((inSubL_perm hqnew).mpr this)
          exact ⟨y, by simp [hy], hyid⟩

/-! ### Soundness of the traversal: every yielded pair is a stored entry -/

theorem map_idOf (l : List (PKey × Node)) :
    l.map idOf = l.map (fun p => p.2.identifier) := rfl

theorem getKN_id {t : Tree} (h : t.WF) {cid : String} {x : PKey × Node}
    (hx : t.getKN cid = Except.ok x) : idOf x = cid ∧ cid ∈ t.ids := by
  obtain ⟨_, hn⟩ := getKN_ok_inv hx
  exact ⟨h.idCons hn, mem_keys_of_alget hn⟩

theorem mapM_getKN_sound {t : Tree} :
    ∀ {cids : List String} {q : List (PKey × Node)},
      cids.mapM (fun cid => t.getKN cid) = Except.ok q →
      ∀ x ∈ q, ∃ cid, t.getKN cid = Except.ok x := by
  intro cids
  induction cids with
  | nil =>
    intro q hq x hx
    rw [List.mapM_nil] at hq
    cases hq
    simp at hx
  | cons c rest ih =>
    intro q hq x hx
    rw [List.mapM_cons] at hq
    obtain ⟨y, hy, hq⟩ := exceptBind_ok hq
    obtain ⟨tl, htl, hq⟩ := exceptBind_ok hq
    rw [epure_eq] at hq
    cases hq
    cases List.mem_cons.mp hx with
    | inl hh => exact ⟨c, hh ▸ hy⟩
    | inr hh => exact ih htl x hh

theorem childrenKN_sound {t : Tree} {nid : String} {q : List (PKey × Node)}
    (h : t.childrenKN nid = Except.ok q) :
    ∀ x ∈ q, ∃ cid, t.getKN cid = Except.ok x := by
  unfold Tree.childrenKN at h
  obtain ⟨cids, hc, h⟩ := exceptBind_ok h
  exact mapM_getKN_sound h

theorem expandLoop_sound {t : Tree} {mode : String} {filt : Filt}
    {ft rev : Bool} :
    ∀ (fuel : Nat) (queue out : List (PKey × Node)),
      t.expandLoop mode filt ft rev fuel queue = Except.ok out →
      ∀ x ∈ out, x ∈ queue ∨ ∃ cid, t.getKN cid = Except.ok x := by
  intro fuel
  induction fuel with
  | zero =>
    intro queue out h x hx
    cases queue with
    | nil => cases h; simp at hx
    | cons a rest => cases h
  | succ fuel ih =>
    intro queue out h x hx
    cases queue with
    | nil => cases h; simp at hx
    | cons a rest =>
      obtain ⟨ck, cn⟩ := a
      unfold Tree.expandLoop at h
      obtain ⟨exp, hexp, h⟩ := exceptBind_ok h
      obtain ⟨tail, htail, h⟩ := exceptBind_ok h
      have hout : out = if passes filt ck cn then (ck, cn) :: tail else tail :=
        (Except.ok.inj h).symm
      have hxtail : x ∈ tail → x ∈ (ck, cn) :: rest ∨
          ∃ cid, t.getKN cid = Except.ok x := by
        intro hxt
        cases ih _ tail htail x hxt with
        | inr hh => exact Or.inr hh
        | inl hh =>
          have hsplit : x ∈ rest ∨
              x ∈ sortPairs rev (exp.filter
                (fun q => enqueues filt ft q.1 q.2)) := by
            by_cases hm : mode = "depth"
            · rw [if_pos hm] at hh
              cases List.mem_append.mp hh with
              | inl h1 => exact Or.inr h1
              | inr h2 => exact Or.inl h2
            · rw [if_neg hm] at hh
              cases List.mem_append.mp hh with
              | inl h1 => exact Or.inl h1
              | inr h2 => exact Or.inr h2
          cases hsplit with
          | inl h1 => exact Or.inl (List.mem_cons_of_mem _ h1)
          | inr h2 =>
            have hxexp : x ∈ exp :=
              List.mem_of_mem_filter (sortPairs_mem.mp h2)
            exact Or.inr (childrenKN_sound hexp x hxexp)
      rw [hout] at hx
      by_cases hp : passes filt ck cn = true
      · rw [if_pos hp] at hx
        cases List.mem_cons.mp hx with
        | inl hh => exact Or.inl (by rw [hh]; simp)
        | inr hh => exact hxtail hh
      · rw [if_neg hp] at hx
        exact hxtail hx

theorem expand_tree_sound {t : Tree} {nid : Option String} {mode : String}
    {filt : Filt} {ft rev : Bool} {out : List (PKey × Node)}
    (h : t.expand_tree nid mode filt ft rev = Except.ok out) :
    ∀ x ∈ out, ∃ cid, t.getKN cid = Except.ok x := by
  unfold Tree.expand_tree at h
  split at h
  · cases h
  · obtain ⟨onid, hens, h⟩ := exceptBind_ok h
    cases onid with
    | none =>
      cases h
      simp
    | some nid2 =>
      obtain ⟨kn, hkn, h⟩ := exceptBind_ok h
      dsimp only at h
      split at h
      · obtain ⟨q, hq, h⟩ := exceptBind_ok h
        obtain ⟨tail, htail, h⟩ := exceptBind_ok h
        have hout : out = if passes filt kn.1 kn.2 then kn :: tail else tail :=
          (Except.ok.inj h).symm
        intro x hx
        rw [hout] at hx
        have hxtail : x ∈ tail → ∃ cid, t.getKN cid = Except.ok x := by
          intro hxt
          cases expandLoop_sound _ _ _ htail x hxt with
          | inr hh => exact hh
          | inl hh =>
            exact childrenKN_sound hq x
              (List.mem_of_mem_filter (sortPairs_mem.mp hh))
        by_cases hp : passes filt kn.1 kn.2 = true
        · rw [if_pos hp] at hx
          cases List.mem_cons.mp hx with
          | inl hh => exact ⟨nid2, hh ▸ hkn⟩
          | inr hh => exact hxtail hh
        · rw [if_neg hp] at hx
          exact hxtail hx
      · intro x hx
        have hout : out = if passes filt kn.1 kn.2 then [kn] else [] :=
          (Except.ok.inj h).symm
        rw [hout] at hx
        by_cases hp : passes filt kn.1 kn.2 = true
        · rw [if_pos hp] at hx
          simp only [List.mem_singleton] at hx
          exact ⟨nid2, hx ▸ hkn⟩
        · rw [if_neg hp] at hx
          simp at hx

/-! ### Completeness of the default traversal from the root -/

theorem qMeasure_le_size (t : Tree) (l : List String) :
    qMeasure t l ≤ t.size := by
  have h1 : qMeasure t l ≤ t.ids.length := List.countP_le_length _
  have h2 : t.ids.length = t.size := by
    unfold Tree.ids alkeys Tree.size
    simp
  omega

theorem QInv_kids {t : Tree} (h : t.WF) {p : String} (hp : p ∈ t.ids) :
    QInv t (t.kids p) := by
  refine ⟨fun c hc => (h.kid_link hp hc).1, h.kids_nodup hp, ?_⟩
  exact List.Pairwise.imp_of_mem
    (fun ha hb hne => kids_incomparable h hp ha hb hne) (h.kids_nodup hp)

/-- Every tree node is the root or lies below one of the root's children. -/
theorem root_inSub {t : Tree} (h : t.WF) {r : String} (hr : t.root = some r) :
    ∀ (n : Nat) (d : String), (t.chainD d).length ≤ n → d ∈ t.ids →
      d = r ∨ inSubL t (t.kids r) d := by
  intro n
  induction n with
  | zero =>
    intro d hlen hd
    obtain ⟨rest, hrr⟩ := chainD_self_mem h hd
    rw [hrr] at hlen
    simp at hlen
  | succ n ih =>
    intro d hlen hd
    by_cases hdr : some d = t.root
    · left
      rw [hr] at hdr
      exact Option.some.inj hdr
    · obtain ⟨p, hp⟩ := h.parent_total hd hdr
      have hcons := chainD_cons h hd hdr hp
      have hpids := (h.parent_link hd hp).1
      have hkid : d ∈ t.kids p := (h.parent_link hd hp).2
      by_cases hpr : p = r
      · right
        subst hpr
        exact ⟨d, hkid, self_mem_chainD h hd⟩
      · have hlen2 : (t.chainD p).length ≤ n := by
          rw [hcons] at hlen
          simp only [List.length_cons] at hlen
          omega
        cases ih p hlen2 hpids with
        | inl hh => exact absurd hh hpr
        | inr hh =>
          right
          obtain ⟨c, hc1, hc2⟩ := hh
          exact ⟨c, hc1, by rw [hcons]; exact List.mem_cons_of_mem _ hc2⟩

/-- The default depth-first traversal from the root succeeds and yields
every tree node exactly once. -/
theorem expandAll_root_run {t : Tree} (h : t.WF) {r : String}
    (hr : t.root = some r) :
    ∃ out, t.expandAll none = Except.ok out ∧
      (out.map idOf).Nodup ∧
      (∀ d, d ∈ t.ids ↔ ∃ x ∈ out, idOf x = d) := by
  have hrm := (h.root_mem hr).1
  obtain ⟨k, n, hkn, hn, hni⟩ := getKN_total h hrm
  obtain ⟨exp, hexp, hexpids, _⟩ := childrenKN_total h hrm
  have hqperm : ((sortPairs false exp).map idOf).Perm (t.kids r) := by
    rw [map_idOf, ← hexpids]
    exact (sortPairs_perm false exp).map _
  have hQ : QInv t ((sortPairs false exp).map idOf) :=
    QInv_perm hqperm.symm (QInv_kids h hrm)
  have hmeas : qMeasure t ((sortPairs false exp).map idOf) ≤ t.size + 1 := by
    rw [qMeasure_perm hqperm]
    exact le_trans (qMeasure_le_size t _) (by omega)
  obtain ⟨tail, hloop, hnd, hrange, hcomp⟩ :=
    expandLoop_run h "depth" false (t.size + 1) (sortPairs false exp) hQ hmeas
  have hrnot : ¬ inSubL t (t.kids r) r := by
    rintro ⟨c, hc, hcc⟩
    rw [chainD_of_root hr] at hcc
    simp only [List.mem_singleton] at hcc
    subst hcc
    have h1 := (h.kid_link hrm hc).2
    rw [(h.root_mem hr).2] at h1
    cases h1
  refine ⟨(k, n) :: tail, ?_, ?_, ?_⟩
  · unfold Tree.expandAll Tree.expand_tree
    rw [if_neg (by decide)]
    have hens : t.ensure_present none true true = Except.ok (some r) := by
      unfold Tree.ensure_present Tree.is_empty
      rw [hr]
      rfl
    simp only [hens, ebind_ok, hkn, passes, Bool.or_false, hexp,
      filter_enqueues_none, hloop, if_true]
  · simp only [List.map_cons, List.nodup_cons]
    refine ⟨?_, hnd⟩
    intro hmem
    obtain ⟨y, hy, hyid⟩ := List.mem_map.mp hmem
    have h2 := (hrange y hy).2
    have h3 := (inSubL_perm hqperm).mp h2
    rw [hyid] at h3
    have h4 : inSubL t (t.kids r) r := by
      have h5 : idOf ((k, n) : PKey × Node) = r := hni
      rwa [h5] at h3
    exact hrnot h4
  · intro d
    constructor
    · intro hd
      cases root_inSub h hr (t.chainD d).length d le_rfl hd with
      | inl hh =>
        exact ⟨(k, n), by simp, by rw [hh]; exact hni⟩
      | inr hh =>
        obtain ⟨y, hy, hyid⟩ :=
          hcomp d hd ((inSubL_perm hqperm).mpr hh)
        exact ⟨y, List.mem_cons_of_mem _ hy, hyid⟩
    · rintro ⟨x, hx, hxd⟩
      cases List.mem_cons.mp hx with
      | inl hh =>
        rw [hh] at hxd
        have : idOf (k, n) = r := hni
        rw [← hxd, this]
        exact hrm
      | inr hh =>
        rw [← hxd]
        exact (hrange x hh).1

/-! ### Filter-through commutation -/

theorem filter_enqueues_ft (f : PKey → Node → Bool)
    (l : List (PKey × Node)) :
    l.filter (fun q => enqueues (some f) true q.1 q.2) = l := by
  induction l with
  | nil => rfl
  | cons x rest ih => simp [List.filter_cons, enqueues, ih]

theorem expandLoop_filter_through {t : Tree} {mode : String}
    (f : PKey → Node → Bool) (rev : Bool) :
    ∀ (fuel : Nat) (queue : List (PKey × Node)),
      t.expandLoop mode (some f) true rev fuel queue =
        Except.map (List.filter (fun q => f q.1 q.2))
          (t.expandLoop mode none false rev fuel queue) := by
  intro fuel
  induction fuel with
  | zero =>
    intro queue
    cases queue with
    | nil => rfl
    | cons a rest => rfl
  | succ fuel ih =>
    intro queue
    cases queue with
    | nil => rfl
    | cons a rest =>
      obtain ⟨ck, cn⟩ := a
      unfold Tree.expandLoop
      cases hexp : t.childrenKN cn.identifier with
      | error e => rfl
      | ok exp =>
        simp only [ebind_ok, filter_enqueues_ft, filter_enqueues_none]
        rw [ih]
        cases hloop : t.expandLoop mode none false rev fuel
            (if mode = "depth" then sortPairs rev exp ++ rest
              else rest ++ sortPairs rev exp) with
        | error e => rfl
        | ok tail =>
          simp only [Except.map, ebind_ok, passes, if_true]
          rw [List.filter_cons]

theorem expand_tree_filter_through (t : Tree) (nid : Option String)
    (mode : String) (f : PKey → Node → Bool) (rev : Bool) :
    t.expand_tree nid mode (some f) true rev =
      Except.map (List.filter (fun q => f q.1 q.2))
        (t.expand_tree nid mode none false rev) := by
  unfold Tree.expand_tree
  by_cases hm : (decide (mode ≠ "depth") && decide (mode ≠ "width")) = true
  · rw [if_pos hm, if_pos hm]
    rfl
  · rw [if_neg hm, if_neg hm]
    cases hens : t.ensure_present nid true true with
    | error e => rfl
    | ok onid =>
      simp only [ebind_ok]
      cases onid with
      | none => rfl
      | some nid2 =>
        dsimp only
        cases hkn : t.getKN nid2 with
        | error e => rfl
        | ok kn =>
          simp only [ebind_ok, passes, Bool.or_true, Bool.or_false, if_true]
          cases hq : t.childrenKN nid2 with
          | error e => rfl
          | ok q =>
            simp only [ebind_ok, filter_enqueues_ft, filter_enqueues_none]
            rw [expandLoop_filter_through]
            cases hloop : t.expandLoop mode none false rev (t.size + 1)
                (sortPairs rev q) with
            | error e => rfl
            | ok tail =>
              simp only [Except.map, ebind_ok, if_true]
              rw [List.filter_cons]

/-- C1 (amended behaviour): the incoming root identifier is never
validated by merge.  On any non-empty receiver, merging a well-formed
incoming tree whose root has no children succeeds and leaves the receiver
unchanged - even when the incoming root identifier already exists in the
receiver, where the claim says merge must fail with DuplicateId. -/
theorem C1_merge_root_id_unchecked {t other : Tree} (h2 : other.WF)
    (r ntroot : String) (hne : t.is_empty = false) (hr : t.root = some r)
    (hroot : other.root = some ntroot) (hkids : other.kids ntroot = []) :
    Tree.mergeM other none t = (Except.ok (), t) := by
  have hmem : ntroot ∈ other.ids := (h2.root_mem hroot).1
  obtain ⟨q, hq, hqids, _⟩ := childrenKN_total h2 hmem
  have hqnil : q = [] := by
    cases q with
    | nil => rfl
    | cons a rest =>
      rw [hkids] at hqids
      cases hqids
  subst hqnil
  have hens : t.ensure_present none true false = Except.ok (some r) := by
    unfold Tree.ensure_present Tree.is_empty
    unfold Tree.is_empty at hne
    rw [hr]
    rfl
  unfold Tree.mergeM
  simp only [M.bind_def, mrun_get, hne, Bool.false_eq_true, if_false,
    mrun_liftE, hens, hroot, hq]
  rfl

/-- Witness for C1: the receiver's root identifier "r" is also the incoming
tree's root identifier, yet the merge succeeds without touching the
receiver. -/
theorem C1_merge_root_id_unchecked_witness :
    mergeReceiver.contains "r" = true ∧
    mergeIncomingBareRoot.root = some "r" ∧
    Tree.mergeM mergeIncomingBareRoot none mergeReceiver =
      (Except.ok (), mergeReceiver) :=
  ⟨by decide, by decide,
    C1_merge_root_id_unchecked (by decide) "r" "r" (by decide) (by decide)
      (by decide) (by decide)⟩

/-- C6: `filter_through=true` never blocks descent.  First, for every tree,
start node, mode, filter and ordering, the traversal with
`filter_through=true` equals the unfiltered traversal with the filter
applied afterwards to the yielded pairs - so a node excluded from the
output cannot prevent its descendants from being visited.  Second, on a
well-formed tree, every tree node is reachable: its stored `(key, node)`
pair is yielded by the whole-tree `filter_through` traversal whenever the
node passes the filter. -/
theorem C6_filter_through (t : Tree) (h : t.WF) :
    (∀ (nid : Option String) (mode : String) (f : PKey → Node → Bool)
      (rev : Bool),
      t.expand_tree nid mode (some f) true rev =
        Except.map (List.filter (fun q => f q.1 q.2))
          (t.expand_tree nid mode none false rev)) ∧
    (∀ (f : PKey → Node → Bool) (d : String), d ∈ t.ids →
      ∃ x, t.getKN d = Except.ok x ∧ (f x.1 x.2 = true →
        ∃ out, t.expand_tree none "depth" (some f) true false =
          Except.ok out ∧ x ∈ out)) := by
  constructor
  · intro nid mode f rev
    exact expand_tree_filter_through t nid mode f rev
  · intro f d hd
    have hroot : ∃ r, t.root = some r := by
      cases hr : t.root with
      | some r => exact ⟨r, rfl⟩
      | none =>
        exfalso
        have hmap := h.root_none_empty hr
        unfold Tree.ids alkeys at hd
        rw [hmap] at hd
        simp at hd
    obtain ⟨r, hr⟩ := hroot
    obtain ⟨out0, hout0, _, hiff⟩ := expandAll_root_run h hr
    obtain ⟨y, hy, hyid⟩ := (hiff d).mp hd
    have hout0e : t.expand_tree none "depth" none false false =
        Except.ok out0 := hout0
    obtain ⟨cid, hcid⟩ := expand_tree_sound hout0e y hy
    have hcd : cid = d := by
      rw [← (getKN_id h hcid).1, hyid]
    rw [hcd] at hcid
    refine ⟨y, hcid, ?_⟩
    intro hf
    refine ⟨out0.filter (fun q => f q.1 q.2), ?_, ?_⟩
    · rw [expand_tree_filter_through]
      have : t.expand_tree none "depth" none false false = Except.ok out0 :=
        hout0
      rw [this]
      rfl
    · exact List.mem_filter.mpr ⟨hy, hf⟩

/-- Witness for C6: the scenario-1 tree is well-formed, so both halves of
the filter-through property hold on it. -/
theorem C6_filter_through_witness :
    (∀ (nid : Option String) (mode : String) (f : PKey → Node → Bool)
      (rev : Bool),
      scenario1.expand_tree nid mode (some f) true rev =
        Except.map (List.filter (fun q => f q.1 q.2))
          (scenario1.expand_tree nid mode none false rev)) ∧
    (∀ (f : PKey → Node → Bool) (d : String), d ∈ scenario1.ids →
      ∃ x, scenario1.getKN d = Except.ok x ∧ (f x.1 x.2 = true →
        ∃ out, scenario1.expand_tree none "depth" (some f) true false =
          Except.ok out ∧ x ∈ out)) :=
  C6_filter_through scenario1 (by decide)

/-- C7: on every well-formed tree, the default whole-tree traversal of an
empty tree is the empty sequence and not an error; the default whole-tree
traversal succeeds and yields every node of the tree exactly once; and any
successful traversal, under any filter and options, yields only nodes of
the tree. -/
theorem C7_expand_completeness (t : Tree) (h : t.WF) :
    (t.is_empty = true → t.expandAll none = Except.ok []) ∧
    (∃ out, t.expandAll none = Except.ok out ∧
      (out.map idOf).Nodup ∧
      (∀ d, d ∈ t.ids ↔ ∃ x ∈ out, idOf x = d)) ∧
    (∀ (nid : Option String) (mode : String) (filt : Filt) (ft rev : Bool)
      (out2 : List (PKey × Node)),
      t.expand_tree nid mode filt ft rev = Except.ok out2 →
      ∀ x ∈ out2, idOf x ∈ t.ids) := by
  refine ⟨?_, ?_, ?_⟩
  · intro he
    have hroot : t.root = none := by
      unfold Tree.is_empty at he
      exact Option.isNone_iff_eq_none.mp he
    unfold Tree.expandAll Tree.expand_tree
    rw [if_neg (by decide)]
    have hens : t.ensure_present none true true = Except.ok none := by
      unfold Tree.ensure_present Tree.is_empty
      rw [hroot]
      rfl
    rw [hens]
    rfl
  · cases hroot : t.root with
    | none =>
      have hmap := h.root_none_empty hroot
      refine ⟨[], ?_, by simp, ?_⟩
      · unfold Tree.expandAll Tree.expand_tree
        rw [if_neg (by decide)]
        have hens : t.ensure_present none true true = Except.ok none := by
          unfold Tree.ensure_present Tree.is_empty
          rw [hroot]
          rfl
        rw [hens]
        rfl
      · intro d
        constructor
        · intro hd
          exfalso
          unfold Tree.ids alkeys at hd
          rw [hmap] at hd
          simp at hd
        · rintro ⟨x, hx, _⟩
          simp at hx
    | some r => exact expandAll_root_run h hroot
  · intro nid mode filt ft rev out2 hout x hx
    obtain ⟨cid, hcid⟩ := expand_tree_sound hout x hx
    rw [(getKN_id h hcid).1]
    exact (getKN_id h hcid).2

/-- Witness for C7: the three parts instantiated on the scenario-1 tree. -/
theorem C7_expand_completeness_witness :
    (scenario1.is_empty = true → scenario1.expandAll none = Except.ok []) ∧
    (∃ out, scenario1.expandAll none = Except.ok out ∧
      (out.map idOf).Nodup ∧
      (∀ d, d ∈ scenario1.ids ↔ ∃ x ∈ out, idOf x = d)) ∧
    (∀ (nid : Option String) (mode : String) (filt : Filt) (ft rev : Bool)
      (out2 : List (PKey × Node)),
      scenario1.expand_tree nid mode filt ft rev = Except.ok out2 →
      ∀ x ∈ out2, idOf x ∈ scenario1.ids) :=
  C7_expand_completeness scenario1 (by decide)

end Lighttree

